import Mathlib

/-!
# Distance-vector routing and count-to-infinity

A shallow embedding of `implementing_DVR.cpp` and `incorporating_link_failure.cpp`.

* `vector<vector<int>>` and `vector<vector<bool>>` are lists of rows.
* `int` values are mathematical integers; the one arithmetic operation of the
  program, the addition `distances[node][neighbor] + distances[neighbor][dest]`,
  is reduced into the 32-bit two's-complement range by `addInt`.
* The `for` loops are left folds over `List.range N` that thread the mutable
  state (`minDist`, or `newDistances` together with `updated`).
* The `do ... while` loops carry the counter `iterations`; the recursion is on
  the number of rounds still allowed by `MAX_ITERATIONS`.
* Printing is dropped, except for the values the program reports: the round
  count and the list `countToInfinityPairs`.
* Node labels are 1-based naturals at the boundary, as in the program; a label
  outside `[1, N]` is outside the program's input contract.
-/

namespace DVR

/-! ## Data model -/

/-- The constant `INT_MAX` of `<climits>`: the marker for an unknown distance. -/
def INT_MAX : Int := 2147483647

/-- Addition of two `int` values, reduced into the range `[-2^31, 2^31)`. -/
def addInt (a b : Int) : Int := (a + b + 2147483648) % 4294967296 - 2147483648

/-- The loop bound `MAX_ITERATIONS` of both convergence loops. -/
def MAX_ITERATIONS : Nat := 100

/-- The constant `INFINITY_THRESHOLD` of `handleLinkFailure`. -/
def INFINITY_THRESHOLD : Int := 100

/-- The `struct Edge`. -/
structure Edge where
  src : Nat
  dest : Nat
  cost : Int
  deriving DecidableEq, Repr

/-- The `struct RoutingTable`. -/
structure RoutingTable where
  distances : List (List Int)
  neighbors : List (List Bool)
  deriving DecidableEq, Repr

/-- Read `m[i][j]`. -/
def cell {α : Type} (dflt : α) (m : List (List α)) (i j : Nat) : α :=
  (m.getD i []).getD j dflt

/-- Read `distances[i][j]`. -/
def distAt (m : List (List Int)) (i j : Nat) : Int := cell 0 m i j

/-- Read `neighbors[i][j]`. -/
def nbrAt (m : List (List Bool)) (i j : Nat) : Bool := cell false m i j

/-- The assignment `m[i][j] = v`. -/
def setCell {α : Type} (m : List (List α)) (i j : Nat) (v : α) : List (List α) :=
  m.set i ((m.getD i []).set j v)

/-- The constructor `RoutingTable(int N)`: all distances `INT_MAX`, no
neighbours, then `distances[i][i] = 0` for every `i`. -/
def RoutingTable.new (N : Nat) : RoutingTable :=
  { distances :=
      (List.range N).foldl (fun distances i => setCell distances i i 0)
        (List.replicate N (List.replicate N INT_MAX))
    neighbors := List.replicate N (List.replicate N false) }

/-! ## Initialisation -/

/-- Body of the loop over the edges in `initializeRoutingTable`. -/
def addEdge (table : RoutingTable) (edge : Edge) : RoutingTable :=
  let src := edge.src - 1
  let dest := edge.dest - 1
  let distances := setCell table.distances src dest edge.cost
  let distances := setCell distances dest src edge.cost
  let neighbors := setCell table.neighbors src dest true
  let neighbors := setCell neighbors dest src true
  { distances := distances, neighbors := neighbors }

/-- The function `initializeRoutingTable`. -/
def initializeRoutingTable (N : Nat) (edges : List Edge) : RoutingTable :=
  edges.foldl addEdge (RoutingTable.new N)

/-! ## One relaxation round -/

/-- The innermost loop of both rounds: the minimum, over the direct neighbours
of `node` whose distance to `dest` is not `INT_MAX`, of
`distances[node][neighbor] + distances[neighbor][dest]`, starting from
`INT_MAX`. -/
def minDistVia (N : Nat) (table : RoutingTable) (node dest : Nat) : Int :=
  (List.range N).foldl
    (fun minDist neighbor =>
      if nbrAt table.neighbors node neighbor then
        if distAt table.distances neighbor dest ≠ INT_MAX then
          let throughNeighbor :=
            addInt (distAt table.distances node neighbor) (distAt table.distances neighbor dest)
          min minDist throughNeighbor
        else minDist
      else minDist)
    INT_MAX

/-- Body of the `dest` loop of `distanceVectorRouting`; the state is
`(newDistances, updated)`. -/
def dvrCell (N : Nat) (table : RoutingTable) (node : Nat)
    (st : List (List Int) × Bool) (dest : Nat) : List (List Int) × Bool :=
  if node ≠ dest then
    let minDist := minDistVia N table node dest
    if minDist < distAt table.distances node dest then
      (setCell st.1 node dest minDist, true)
    else st
  else st

/-- One pass of the `do` body of `distanceVectorRouting`: `newDistances`
starts as a copy of `table.distances`, `updated` as `false`. -/
def dvrRound (N : Nat) (table : RoutingTable) : List (List Int) × Bool :=
  (List.range N).foldl
    (fun st node => (List.range N).foldl (dvrCell N table node) st)
    (table.distances, false)

/-- Body of the `dest` loop of the post-failure round in `handleLinkFailure`. -/
def failCell (N : Nat) (table : RoutingTable) (node : Nat)
    (st : List (List Int) × Bool) (dest : Nat) : List (List Int) × Bool :=
  if node ≠ dest then
    let oldDist := distAt table.distances node dest
    let minDist := minDistVia N table node dest
    if minDist ≠ oldDist then
      (setCell st.1 node dest minDist, true)
    else st
  else st

/-- One pass of the `do` body of `handleLinkFailure`. -/
def failRound (N : Nat) (table : RoutingTable) : List (List Int) × Bool :=
  (List.range N).foldl
    (fun st node => (List.range N).foldl (failCell N table node) st)
    (table.distances, false)

/-! ## The convergence loops -/

/-- What a convergence loop leaves behind: the table and the round count. -/
structure RunResult where
  table : RoutingTable
  iterations : Nat
  deriving DecidableEq, Repr

/-- The `do ... while (updated)` loop shared in shape by both functions, over a
round function: count the round, commit `newDistances`, stop at
`MAX_ITERATIONS`, otherwise continue while the round changed something. The
first argument is the number of rounds still allowed. -/
def convergeLoop (round : RoutingTable → List (List Int) × Bool) :
    Nat → RoutingTable → Nat → RunResult
  | 0, table, iterations => { table := table, iterations := iterations }
  | fuel + 1, table, iterations =>
    let r := round table
    let iterations := iterations + 1
    let table := { table with distances := r.1 }
    if iterations ≥ MAX_ITERATIONS then { table := table, iterations := iterations }
    else if r.2 then convergeLoop round fuel table iterations
    else { table := table, iterations := iterations }

/-- The function `distanceVectorRouting`, returning the table together with the
round count it prints. -/
def distanceVectorRouting (N : Nat) (edges : List Edge) : RunResult :=
  convergeLoop (dvrRound N) MAX_ITERATIONS (initializeRoutingTable N edges) 0

/-! ## Link failure -/

/-- The first step of `handleLinkFailure`: mark the failed link. -/
def injectFailure (table : RoutingTable) (failSrc failDest : Nat) : RoutingTable :=
  let failSrc := failSrc - 1
  let failDest := failDest - 1
  let distances := setCell table.distances failSrc failDest INT_MAX
  let distances := setCell distances failDest failSrc INT_MAX
  let neighbors := setCell table.neighbors failSrc failDest false
  let neighbors := setCell neighbors failDest failSrc false
  { distances := distances, neighbors := neighbors }

/-- The final scan of `handleLinkFailure`, building `countToInfinityPairs`. -/
def countToInfinityPairs (N : Nat) (table : RoutingTable) : List (Nat × Nat) :=
  (List.range N).foldl
    (fun pairs i =>
      (List.range N).foldl
        (fun pairs j =>
          if i ≠ j ∧ distAt table.distances i j ≠ INT_MAX
              ∧ distAt table.distances i j ≥ INFINITY_THRESHOLD then
            pairs ++ [(i, j)]
          else pairs)
        pairs)
    []

/-- What `handleLinkFailure` leaves behind. -/
structure FailureResult where
  table : RoutingTable
  iterations : Nat
  pairs : List (Nat × Nat)
  deriving DecidableEq, Repr

/-- The function `handleLinkFailure`. -/
def handleLinkFailure (N : Nat) (table : RoutingTable) (failSrc failDest : Nat) :
    FailureResult :=
  let table := injectFailure table failSrc failDest
  let run := convergeLoop (failRound N) MAX_ITERATIONS table 0
  { table := run.table, iterations := run.iterations,
    pairs := countToInfinityPairs N run.table }

/-! ## Auxiliary notions used in the statements and proofs -/

/-- A matrix with `N` rows of `N` entries each. -/
def Square {α : Type} (N : Nat) (m : List (List α)) : Prop :=
  m.length = N ∧ ∀ i, i < N → (m.getD i []).length = N

/-- The common shape of `dvrCell` and `failCell`: when `node ≠ dest` and the
test `P node dest` succeeds, write `v node dest` and raise the flag. -/
def relaxCell (P : Nat → Nat → Bool) (v : Nat → Nat → Int) (node : Nat)
    (st : List (List Int) × Bool) (dest : Nat) : List (List Int) × Bool :=
  if node ≠ dest ∧ P node dest = true then (setCell st.1 node dest (v node dest), true) else st

/-- The two nested loops over `relaxCell`, the outer one cut at `n`. -/
def relaxRows (P : Nat → Nat → Bool) (v : Nat → Nat → Int) (N n : Nat)
    (st : List (List Int) × Bool) : List (List Int) × Bool :=
  (List.range n).foldl (fun st node => (List.range N).foldl (relaxCell P v node) st) st

/-- Either round, chosen by a flag: the `<` round of `distanceVectorRouting`
(`false`) or the `!=` round of `handleLinkFailure` (`true`). -/
def roundOf (postFailure : Bool) (N : Nat) (table : RoutingTable) : List (List Int) × Bool :=
  if postFailure then failRound N table else dvrRound N table

/-- The table after a round has been committed: `table.distances = newDistances`. -/
def commit (table : RoutingTable) (r : List (List Int) × Bool) : RoutingTable :=
  { table with distances := r.1 }

/-- Row-major order on index pairs. -/
def rowMajorLt (p q : Nat × Nat) : Prop :=
  p.1 < q.1 ∨ (p.1 = q.1 ∧ p.2 < q.2)

/-- The test of the anomaly scan, as a Boolean. -/
def flagged (table : RoutingTable) (i j : Nat) : Bool :=
  decide (i ≠ j ∧ distAt table.distances i j ≠ INT_MAX
    ∧ distAt table.distances i j ≥ INFINITY_THRESHOLD)

/-- The scan of the classifier written as a comprehension: the flagged index
pairs, row by row. -/
def flaggedRowMajor (N : Nat) (table : RoutingTable) : List (Nat × Nat) :=
  (List.range N).flatMap fun i =>
    ((List.range N).filter fun j => flagged table i j).map fun j => (i, j)

/-- The converged table of the line `1 - 2 - 3` with unit costs. -/
def lineTable : RoutingTable :=
  { distances := [[0, 1, 2], [1, 0, 1], [2, 1, 0]]
    neighbors := [[false, true, false], [true, false, true], [false, true, false]] }

/-- The table after `r` committed rounds of a round function, without the
stopping test. -/
def afterRounds (round : RoutingTable → List (List Int) × Bool) (table : RoutingTable) :
    Nat → RoutingTable
  | 0 => table
  | r + 1 => commit (afterRounds round table r) (round (afterRounds round table r))

/-- The table of two nodes joined by one link of cost `c`. -/
def pairTable (c : Int) : RoutingTable :=
  { distances := [[0, c], [c, 0]], neighbors := [[false, true], [true, false]] }

/-- The line `1 - 2 - 3` with unit costs. -/
def line3 : List Edge := [⟨1, 2, 1⟩, ⟨2, 3, 1⟩]

/-- Five nodes: a triangle `1 - 2 - 3` whose direct link `1 - 3` is dear,
followed by the tail `3 - 4 - 5`. -/
def asym5 : List Edge := [⟨1, 2, 1⟩, ⟨2, 3, 1⟩, ⟨1, 3, 100⟩, ⟨3, 4, 1⟩, ⟨4, 5, 1⟩]

/-- The triangle `1 - 2 - 3` whose direct link `1 - 3` costs 10. -/
def triangle : List Edge := [⟨1, 2, 1⟩, ⟨2, 3, 1⟩, ⟨1, 3, 10⟩]

/-! ## The graph of the topology -/

/-- Whether the edge joins the 0-based nodes `i` and `j`, in either orientation. -/
def Edge.joins (e : Edge) (i j : Nat) : Bool :=
  decide ((e.src = i + 1 ∧ e.dest = j + 1) ∨ (e.src = j + 1 ∧ e.dest = i + 1))

/-- Cost of the link between the 0-based nodes `i` and `j` in the undirected
graph given by an edge list: the cost of the last edge of the list that joins
them (the last cost wins), `none` when no edge joins them. -/
def linkCost (edges : List Edge) (i j : Nat) : Option Int :=
  (edges.reverse.find? fun e => e.joins i j).map Edge.cost

/-- The input contract on a topology: endpoints in `[1, N]`, no self-loops,
non-negative costs. -/
def ValidEdges (N : Nat) (edges : List Edge) : Prop :=
  ∀ e ∈ edges, 1 ≤ e.src ∧ e.src ≤ N ∧ 1 ≤ e.dest ∧ e.dest ≤ N ∧ e.src ≠ e.dest ∧ 0 ≤ e.cost

/-- Last node of the walk that starts at `i` and then visits the nodes of the list. -/
def walkEnd : Nat → List Nat → Nat
  | i, [] => i
  | _, k :: rest => walkEnd k rest

/-- Length (sum of link costs) of the walk that starts at `i` and then visits
the nodes of the list, in a graph given by its link costs; `none` when two
consecutive nodes are not joined. -/
def walkCost (w : Nat → Nat → Option Int) : Nat → List Nat → Option Int
  | _, [] => some 0
  | i, k :: rest =>
    match w i k, walkCost w k rest with
    | some c, some r => some (c + r)
    | _, _ => none

/-- No walk of the graph leads from `i` to `j`. -/
def Unreachable (w : Nat → Nat → Option Int) (i j : Nat) : Prop :=
  ∀ p, walkEnd i p = j → walkCost w i p = none

/-- The integer `d` is the length of a shortest path from `i` to `j`: some
walk from `i` to `j` has length `d`, and none is shorter. -/
def IsShortestDist (w : Nat → Nat → Option Int) (i j : Nat) (d : Int) : Prop :=
  (∃ p, walkEnd i p = j ∧ walkCost w i p = some d)
    ∧ ∀ p c, walkEnd i p = j → walkCost w i p = some c → d ≤ c

/-- Every sum `distances[i][k] + distances[k][j]` that a round forms on the
table (for `i ≠ j`, `k` a neighbour of `i`, `distances[k][j]` not `INT_MAX`)
stays below `INT_MAX`, the value the program reserves for infinity. -/
def SumsBelowMax (N : Nat) (t : RoutingTable) : Prop :=
  ∀ i, i < N → ∀ j, j < N → ∀ k, k < N →
    (i ≠ j ∧ nbrAt t.neighbors i k = true ∧ distAt t.distances k j ≠ INT_MAX) →
    distAt t.distances i k + distAt t.distances k j < INT_MAX

instance (N : Nat) (t : RoutingTable) : Decidable (SumsBelowMax N t) := by
  unfold SumsBelowMax
  infer_instance

/-- A graph on the nodes below `N` with non-negative link costs. -/
def GraphOn (N : Nat) (w : Nat → Nat → Option Int) : Prop :=
  ∀ a b c, w a b = some c → a < N ∧ b < N ∧ 0 ≤ c

/-- A table anchored to a graph: `N` rows and columns, zero diagonal, entries
between 0 and `INT_MAX`, the mask marks exactly the links of the graph, and the
entry of a neighbour is at most the cost of the link. -/
def Anchored (N : Nat) (w : Nat → Nat → Option Int) (t : RoutingTable) : Prop :=
  Square N t.distances
  ∧ (∀ a, a < N → distAt t.distances a a = 0)
  ∧ (∀ a b, a < N → b < N → 0 ≤ distAt t.distances a b ∧ distAt t.distances a b ≤ INT_MAX)
  ∧ (∀ a b, a < N → b < N → nbrAt t.neighbors a b = true →
      ∃ c, w a b = some c ∧ distAt t.distances a b ≤ c)
  ∧ (∀ a b c, w a b = some c → nbrAt t.neighbors a b = true)

/-- Every entry other than `INT_MAX` is the length of a walk of the graph. -/
def Realised (N : Nat) (w : Nat → Nat → Option Int) (t : RoutingTable) : Prop :=
  ∀ a b, a < N → b < N → distAt t.distances a b ≠ INT_MAX →
    ∃ p, walkEnd a p = b ∧ walkCost w a p = some (distAt t.distances a b)

instance (N : Nat) (edges : List Edge) : Decidable (ValidEdges N edges) := by
  unfold ValidEdges
  infer_instance

/-- Every node is reachable from every node. -/
def Connected (N : Nat) (w : Nat → Nat → Option Int) : Prop :=
  ∀ i j, i < N → j < N → ¬ Unreachable w i j

/-- Two links of three nodes whose costs add up past `INT_MAX`. -/
def dear3 : List Edge := [⟨1, 2, 2147483646⟩, ⟨2, 3, 3⟩]

/-- Link costs of the graph of the topology with the link between the labels
`failSrc` and `failDest` removed. -/
def linkCostWithout (edges : List Edge) (failSrc failDest : Nat) (i j : Nat) : Option Int :=
  if (i = failSrc - 1 ∧ j = failDest - 1) ∨ (i = failDest - 1 ∧ j = failSrc - 1) then none
  else linkCost edges i j

/-- No sum that a round forms on the table overflows: the 32-bit addition
returns the exact sum. -/
def NoOverflow (N : Nat) (t : RoutingTable) : Prop :=
  ∀ i, i < N → ∀ j, j < N → ∀ k, k < N →
    (i ≠ j ∧ nbrAt t.neighbors i k = true ∧ distAt t.distances k j ≠ INT_MAX) →
    addInt (distAt t.distances i k) (distAt t.distances k j)
      = distAt t.distances i k + distAt t.distances k j

instance (N : Nat) (t : RoutingTable) : Decidable (NoOverflow N t) := by
  unfold NoOverflow
  infer_instance

/-- Two links of three nodes whose costs add up to exactly `INT_MAX`. -/
def brink3 : List Edge := [⟨1, 2, 2147483646⟩, ⟨2, 3, 1⟩]

/-- The integer `m` is the neighbour minimum for `(i, j)` on the table: the
least `distances[i][k] + distances[k][j]` (an `int` addition) over the nodes
`k < N` with `neighbors[i][k]` set and `distances[k][j]` not `INT_MAX`, and
`INT_MAX` when there is no such `k`. -/
def IsNeighbourMin (N : Nat) (t : RoutingTable) (i j : Nat) (m : Int) : Prop :=
  (∀ k, k < N → nbrAt t.neighbors i k = true → distAt t.distances k j ≠ INT_MAX →
    m ≤ addInt (distAt t.distances i k) (distAt t.distances k j))
  ∧ ((∃ k, k < N ∧ nbrAt t.neighbors i k = true ∧ distAt t.distances k j ≠ INT_MAX
        ∧ m = addInt (distAt t.distances i k) (distAt t.distances k j))
    ∨ ((∀ k, k < N → nbrAt t.neighbors i k = true → distAt t.distances k j = INT_MAX)
        ∧ m = INT_MAX))

/-- A self-loop on node 2 of two nodes. -/
def loop2 : List Edge := [⟨2, 2, 7⟩]

/-- The neighbour minimum as the specification words it: the sum
`old[i][k] + old[k][j]` is taken only when both `old[i][k]` and `old[k][j]`
are finite. -/
def specMinDist (N : Nat) (table : RoutingTable) (node dest : Nat) : Int :=
  (List.range N).foldl
    (fun minDist neighbor =>
      if nbrAt table.neighbors node neighbor then
        if distAt table.distances node neighbor ≠ INT_MAX
            ∧ distAt table.distances neighbor dest ≠ INT_MAX then
          min minDist
            (addInt (distAt table.distances node neighbor)
              (distAt table.distances neighbor dest))
        else minDist
      else minDist)
    INT_MAX

/-- A table whose neighbour entries are finite: `N` rows and columns in both
matrices, zero diagonal, entries in the range of `int`, and an entry below
`INT_MAX` wherever the mask is set. -/
def NeighboursFinite (N : Nat) (t : RoutingTable) : Prop :=
  Square N t.distances ∧ Square N t.neighbors
  ∧ (∀ a, a < N → distAt t.distances a a = 0)
  ∧ (∀ a b, a < N → b < N →
      -2147483648 ≤ distAt t.distances a b ∧ distAt t.distances a b ≤ INT_MAX)
  ∧ (∀ a b, a < N → b < N → nbrAt t.neighbors a b = true →
      distAt t.distances a b < INT_MAX)

/-! # Properties -/

/-! ## Reading and writing cells -/

theorem getD_set_eq {α : Type} (l : List α) (j b : Nat) (v d : α) :
    (l.set j v).getD b d = if b = j ∧ j < l.length then v else l.getD b d := by
  simp only [List.getD_eq_getElem?_getD, List.getElem?_set]
  by_cases hjb : j = b
  · subst hjb
    by_cases hl : j < l.length
    · simp [hl]
    · simp [hl, List.getElem?_eq_none (Nat.le_of_not_lt hl)]
  · have : ¬ b = j := fun h => hjb h.symm
    simp [hjb, this]

theorem cell_setCell {α : Type} (dflt : α) (m : List (List α)) (i j a b : Nat) (v : α) :
    cell dflt (setCell m i j v) a b =
      if a = i ∧ b = j ∧ i < m.length ∧ j < (m.getD i []).length then v
      else cell dflt m a b := by
  unfold cell setCell
  rw [getD_set_eq]
  by_cases hai : a = i
  · subst hai
    by_cases hl : a < m.length
    · simp only [hl, and_self, if_true, true_and, getD_set_eq]
    · simp only [hl, and_false, if_false, false_and]
  · simp only [hai, false_and, if_false]

theorem square_setCell {α : Type} {N : Nat} {m : List (List α)} (h : Square N m)
    (i j : Nat) (v : α) : Square N (setCell m i j v) := by
  obtain ⟨h1, h2⟩ := h
  refine ⟨by simp [setCell, h1], fun a ha => ?_⟩
  unfold setCell
  rw [getD_set_eq]
  by_cases hai : a = i ∧ i < m.length
  · rw [if_pos hai, List.length_set, ← hai.1]
    exact h2 a ha
  · rw [if_neg hai]
    exact h2 a ha

theorem cell_setCell_sq {α : Type} {N : Nat} (dflt : α) {m : List (List α)} (h : Square N m)
    {i j : Nat} (hi : i < N) (hj : j < N) (a b : Nat) (v : α) :
    cell dflt (setCell m i j v) a b = if a = i ∧ b = j then v else cell dflt m a b := by
  rw [cell_setCell]
  have h1 : i < m.length := by rw [h.1]; exact hi
  have h2 : j < (m.getD i []).length := by rw [h.2 i hi]; exact hj
  simp only [h1, h2, and_true]

/-! ## The nested loops of a round -/

theorem dvrCell_eq (N : Nat) (t : RoutingTable) :
    dvrCell N t = relaxCell
      (fun i j => decide (minDistVia N t i j < distAt t.distances i j)) (minDistVia N t) := by
  funext node st dest
  unfold dvrCell relaxCell
  by_cases h : node = dest
  · simp [h]
  · by_cases h2 : minDistVia N t node dest < distAt t.distances node dest
    · simp [h, h2]
    · simp [h, h2]

theorem failCell_eq (N : Nat) (t : RoutingTable) :
    failCell N t = relaxCell
      (fun i j => decide (minDistVia N t i j ≠ distAt t.distances i j)) (minDistVia N t) := by
  funext node st dest
  unfold failCell relaxCell
  by_cases h : node = dest
  · simp [h]
  · by_cases h2 : minDistVia N t node dest = distAt t.distances node dest
    · simp [h, h2]
    · simp [h, h2]

theorem dvrRound_eq (N : Nat) (t : RoutingTable) :
    dvrRound N t = relaxRows
      (fun i j => decide (minDistVia N t i j < distAt t.distances i j)) (minDistVia N t)
      N N (t.distances, false) := by
  unfold dvrRound relaxRows
  rw [dvrCell_eq]

theorem failRound_eq (N : Nat) (t : RoutingTable) :
    failRound N t = relaxRows
      (fun i j => decide (minDistVia N t i j ≠ distAt t.distances i j)) (minDistVia N t)
      N N (t.distances, false) := by
  unfold failRound relaxRows
  rw [failCell_eq]

/-- Any property of the loop state that every effective write preserves holds
after the two nested loops. -/
theorem relaxRows_inv (P : Nat → Nat → Bool) (v : Nat → Nat → Int) (N : Nat)
    (Inv : List (List Int) × Bool → Prop)
    (hstep : ∀ st node dest, Inv st → node < N → dest < N → node ≠ dest → P node dest = true →
      Inv (setCell st.1 node dest (v node dest), true))
    (n : Nat) (hn : n ≤ N) (st : List (List Int) × Bool) (h0 : Inv st) :
    Inv (relaxRows P v N n st) := by
  have inner : ∀ node, node < N → ∀ k, k ≤ N → ∀ st, Inv st →
      Inv ((List.range k).foldl (relaxCell P v node) st) := by
    intro node hnode k
    induction k with
    | zero => intro _ st h; simpa using h
    | succ k ih =>
      intro hk st h
      rw [List.range_succ, List.foldl_append]
      have h1 := ih (Nat.le_of_succ_le hk) st h
      simp only [List.foldl_cons, List.foldl_nil]
      unfold relaxCell
      split
      · rename_i hc
        exact hstep _ node k h1 hnode hk hc.1 hc.2
      · exact h1
  induction n with
  | zero => simpa [relaxRows] using h0
  | succ n ih =>
    unfold relaxRows
    rw [List.range_succ, List.foldl_append]
    simp only [List.foldl_cons, List.foldl_nil]
    exact inner n hn N (Nat.le_refl N) _ (ih (Nat.le_of_succ_le hn))

theorem relaxRows_square (P : Nat → Nat → Bool) (v : Nat → Nat → Int) (N : Nat)
    (st : List (List Int) × Bool) (h : Square N st.1) (n : Nat) (hn : n ≤ N) :
    Square N (relaxRows P v N n st).1 :=
  relaxRows_inv P v N (fun st => Square N st.1)
    (fun _ node dest hs _ _ _ _ => square_setCell hs node dest _) n hn st h

/-- A round that leaves the flag down has written nothing. -/
theorem relaxRows_unchanged (P : Nat → Nat → Bool) (v : Nat → Nat → Int) (N : Nat)
    (m : List (List Int)) (n : Nat) (hn : n ≤ N)
    (h : (relaxRows P v N n (m, false)).2 = false) :
    (relaxRows P v N n (m, false)).1 = m := by
  have := relaxRows_inv P v N (fun st => st.2 = false → st.1 = m)
    (fun st node dest _ _ _ _ _ hf => by simp at hf) n hn (m, false) (fun _ => rfl)
  exact this h

theorem relaxRow_spec (P : Nat → Nat → Bool) (v : Nat → Nat → Int) (N node : Nat)
    (hnode : node < N) (st : List (List Int) × Bool) (hsq : Square N st.1)
    (k : Nat) (hk : k ≤ N) :
    Square N ((List.range k).foldl (relaxCell P v node) st).1 ∧
    (∀ a b, distAt ((List.range k).foldl (relaxCell P v node) st).1 a b =
      if a = node ∧ b < k ∧ a ≠ b ∧ P a b = true then v a b else distAt st.1 a b) ∧
    (((List.range k).foldl (relaxCell P v node) st).2 = true ↔
      st.2 = true ∨ ∃ b, b < k ∧ node ≠ b ∧ P node b = true) := by
  induction k with
  | zero => simp [hsq]
  | succ k ih =>
    obtain ⟨ih1, ih2, ih3⟩ := ih (Nat.le_of_succ_le hk)
    rw [List.range_succ, List.foldl_append]
    simp only [List.foldl_cons, List.foldl_nil]
    generalize (List.range k).foldl (relaxCell P v node) st = r at ih1 ih2 ih3
    unfold relaxCell
    by_cases hc : node ≠ k ∧ P node k = true
    · rw [if_pos hc]
      refine ⟨square_setCell ih1 _ _ _, fun a b => ?_, ?_⟩
      · show distAt (setCell r.1 node k (v node k)) a b = _
        unfold distAt
        rw [cell_setCell_sq 0 ih1 hnode hk]
        by_cases hab : a = node ∧ b = k
        · obtain ⟨rfl, rfl⟩ := hab
          simp [hc.1, hc.2]
        · rw [if_neg hab]
          have := ih2 a b
          unfold distAt at this
          rw [this]
          by_cases ha : a = node
          · have hb : b ≠ k := fun h => hab ⟨ha, h⟩
            have : b < k + 1 ↔ b < k := by omega
            simp only [ha, this]
          · simp only [ha, false_and]
      · simp only [true_iff]
        exact Or.inr ⟨k, Nat.lt_succ_self k, hc.1, hc.2⟩
    · rw [if_neg hc]
      refine ⟨ih1, fun a b => ?_, ?_⟩
      · rw [ih2 a b]
        by_cases hab : a = node ∧ b = k
        · obtain ⟨rfl, rfl⟩ := hab
          have h1 : ¬ (a = a ∧ b < b + 1 ∧ a ≠ b ∧ P a b = true) := fun h => hc ⟨h.2.2.1, h.2.2.2⟩
          have h2 : ¬ (a = a ∧ b < b ∧ a ≠ b ∧ P a b = true) := fun h => hc ⟨h.2.2.1, h.2.2.2⟩
          rw [if_neg h1, if_neg h2]
        · by_cases ha : a = node
          · have hb : b ≠ k := fun h => hab ⟨ha, h⟩
            have : b < k + 1 ↔ b < k := by omega
            simp only [ha, this]
          · simp only [ha, false_and]
      · rw [ih3]
        constructor
        · rintro (h | ⟨b, hb, h⟩)
          · exact Or.inl h
          · exact Or.inr ⟨b, Nat.lt_succ_of_lt hb, h⟩
        · rintro (h | ⟨b, hb, h⟩)
          · exact Or.inl h
          · by_cases hbk : b = k
            · subst hbk; exact absurd h hc
            · exact Or.inr ⟨b, by omega, h⟩

theorem relaxRows_spec (P : Nat → Nat → Bool) (v : Nat → Nat → Int) (N : Nat)
    (m : List (List Int)) (hsq : Square N m) (n : Nat) (hn : n ≤ N) :
    Square N (relaxRows P v N n (m, false)).1 ∧
    (∀ a b, distAt (relaxRows P v N n (m, false)).1 a b =
      if a < n ∧ b < N ∧ a ≠ b ∧ P a b = true then v a b else distAt m a b) ∧
    ((relaxRows P v N n (m, false)).2 = true ↔
      ∃ a b, a < n ∧ b < N ∧ a ≠ b ∧ P a b = true) := by
  induction n with
  | zero => simp [relaxRows, hsq]
  | succ n ih =>
    obtain ⟨ih1, ih2, ih3⟩ := ih (Nat.le_of_succ_le hn)
    have hstep : relaxRows P v N (n + 1) (m, false) =
        (List.range N).foldl (relaxCell P v n) (relaxRows P v N n (m, false)) := by
      unfold relaxRows
      rw [List.range_succ, List.foldl_append]
      rfl
    rw [hstep]
    generalize relaxRows P v N n (m, false) = r at ih1 ih2 ih3
    obtain ⟨s1, s2, s3⟩ := relaxRow_spec P v N n hn r ih1 N (Nat.le_refl N)
    refine ⟨s1, fun a b => ?_, ?_⟩
    · rw [s2 a b, ih2 a b]
      by_cases ha : a = n
      · subst ha
        simp
      · have : a < n + 1 ↔ a < n := by omega
        simp only [ha, false_and, if_false, this]
    · rw [s3, ih3]
      constructor
      · rintro (⟨a, b, ha, h⟩ | ⟨b, hb, h⟩)
        · exact ⟨a, b, Nat.lt_succ_of_lt ha, h⟩
        · exact ⟨n, b, Nat.lt_succ_self n, hb, h⟩
      · rintro ⟨a, b, ha, hb, h⟩
        by_cases han : a = n
        · subst han; exact Or.inr ⟨b, hb, h⟩
        · exact Or.inl ⟨a, b, by omega, hb, h⟩

/-! ## The neighbour minimum -/

theorem minDistVia_spec (N : Nat) (t : RoutingTable) (i j : Nat) :
    minDistVia N t i j ≤ INT_MAX ∧
    (∀ k, k < N → nbrAt t.neighbors i k = true → distAt t.distances k j ≠ INT_MAX →
      minDistVia N t i j ≤ addInt (distAt t.distances i k) (distAt t.distances k j)) ∧
    (minDistVia N t i j = INT_MAX ∨
      ∃ k, k < N ∧ nbrAt t.neighbors i k = true ∧ distAt t.distances k j ≠ INT_MAX ∧
        minDistVia N t i j = addInt (distAt t.distances i k) (distAt t.distances k j)) := by
  unfold minDistVia
  generalize hN : N = n
  clear hN
  induction n with
  | zero => simp
  | succ n ih =>
    rw [List.range_succ, List.foldl_append]
    simp only [List.foldl_cons, List.foldl_nil]
    obtain ⟨ih1, ih2, ih3⟩ := ih
    generalize (List.range n).foldl _ INT_MAX = r at ih1 ih2 ih3 ⊢
    by_cases hc : nbrAt t.neighbors i n = true ∧ distAt t.distances n j ≠ INT_MAX
    · rw [if_pos hc.1, if_pos hc.2]
      refine ⟨le_trans (min_le_left _ _) ih1, fun k hk h1 h2 => ?_, ?_⟩
      · by_cases hkn : k = n
        · subst hkn; exact min_le_right _ _
        · exact le_trans (min_le_left _ _) (ih2 k (by omega) h1 h2)
      · rcases le_total r (addInt (distAt t.distances i n) (distAt t.distances n j)) with h | h
        · rw [min_eq_left h]
          rcases ih3 with h3 | ⟨k, hk, h3⟩
          · exact Or.inl h3
          · exact Or.inr ⟨k, Nat.lt_succ_of_lt hk, h3⟩
        · rw [min_eq_right h]
          exact Or.inr ⟨n, Nat.lt_succ_self n, hc.1, hc.2, rfl⟩
    · have hr : (if nbrAt t.neighbors i n = true then
          if distAt t.distances n j ≠ INT_MAX then
            min r (addInt (distAt t.distances i n) (distAt t.distances n j))
          else r
        else r) = r := by
        by_cases h1 : nbrAt t.neighbors i n = true
        · have h2 : ¬ distAt t.distances n j ≠ INT_MAX := fun h => hc ⟨h1, h⟩
          rw [if_pos h1, if_neg h2]
        · rw [if_neg h1]
      rw [hr]
      refine ⟨ih1, fun k hk h1 h2 => ?_, ?_⟩
      · by_cases hkn : k = n
        · subst hkn; exact absurd ⟨h1, h2⟩ hc
        · exact ih2 k (by omega) h1 h2
      · rcases ih3 with h3 | ⟨k, hk, h3⟩
        · exact Or.inl h3
        · exact Or.inr ⟨k, Nat.lt_succ_of_lt hk, h3⟩

theorem dvrRound_spec (N : Nat) (t : RoutingTable) (hsq : Square N t.distances) :
    Square N (dvrRound N t).1 ∧
    (∀ a b, distAt (dvrRound N t).1 a b =
      if a < N ∧ b < N ∧ a ≠ b ∧ minDistVia N t a b < distAt t.distances a b
      then minDistVia N t a b else distAt t.distances a b) ∧
    ((dvrRound N t).2 = true ↔
      ∃ a b, a < N ∧ b < N ∧ a ≠ b ∧ minDistVia N t a b < distAt t.distances a b) := by
  rw [dvrRound_eq]
  have := relaxRows_spec
    (fun i j => decide (minDistVia N t i j < distAt t.distances i j)) (minDistVia N t)
    N t.distances hsq N (Nat.le_refl N)
  simpa only [decide_eq_true_eq] using this

theorem failRound_spec (N : Nat) (t : RoutingTable) (hsq : Square N t.distances) :
    Square N (failRound N t).1 ∧
    (∀ a b, distAt (failRound N t).1 a b =
      if a < N ∧ b < N ∧ a ≠ b ∧ minDistVia N t a b ≠ distAt t.distances a b
      then minDistVia N t a b else distAt t.distances a b) ∧
    ((failRound N t).2 = true ↔
      ∃ a b, a < N ∧ b < N ∧ a ≠ b ∧ minDistVia N t a b ≠ distAt t.distances a b) := by
  rw [failRound_eq]
  have := relaxRows_spec
    (fun i j => decide (minDistVia N t i j ≠ distAt t.distances i j)) (minDistVia N t)
    N t.distances hsq N (Nat.le_refl N)
  simpa only [decide_eq_true_eq] using this

/-! ## Monotonicity and idempotence of a round -/

theorem dvrRound_le_before (N : Nat) (table : RoutingTable) (i j : Nat) :
    distAt (commit table (dvrRound N table)).distances i j ≤ distAt table.distances i j := by
  show distAt (dvrRound N table).1 i j ≤ _
  rw [dvrRound_eq]
  refine relaxRows_inv _ _ N
    (fun st => ∀ a b, distAt st.1 a b ≤ distAt table.distances a b) ?_ N (Nat.le_refl N)
    (table.distances, false) (fun _ _ => le_refl _) i j
  intro st node dest hst _ _ _ hP a b
  show distAt (setCell st.1 node dest _) a b ≤ _
  unfold distAt
  rw [cell_setCell]
  split
  · rename_i h
    obtain ⟨rfl, rfl, _⟩ := h
    exact le_of_lt (by simpa using hP)
  · exact hst a b

/-- C7. Monotonicity of the failure-free round: for every table and all `i`,
`j`, the value of `distances[i][j]` after one round of `distanceVectorRouting`
is at most its value before the round (`INT_MAX`, the marker for infinity,
being the largest value an entry can hold). -/
theorem dvrRound_monotone (N : Nat) (table : RoutingTable) (i j : Nat) :
    distAt (commit table (dvrRound N table)).distances i j ≤ distAt table.distances i j :=
  dvrRound_le_before N table i j

theorem roundOf_unchanged (postFailure : Bool) (N : Nat) (table : RoutingTable)
    (h : (roundOf postFailure N table).2 = false) :
    (roundOf postFailure N table).1 = table.distances := by
  cases postFailure
  · simp only [roundOf, Bool.false_eq_true, if_false] at h ⊢
    rw [dvrRound_eq] at h ⊢
    exact relaxRows_unchanged _ _ N _ N (Nat.le_refl N) h
  · simp only [roundOf, if_true] at h ⊢
    rw [failRound_eq] at h ⊢
    exact relaxRows_unchanged _ _ N _ N (Nat.le_refl N) h

/-- C8. Idempotence at a fixed point, for both round variants: if a round
applied to a table left `updated == false`, then one more round applied to the
committed table yields the identical distance matrix and again leaves
`updated == false`. -/
theorem round_idempotent (postFailure : Bool) (N : Nat) (table : RoutingTable)
    (h : (roundOf postFailure N table).2 = false) :
    (roundOf postFailure N (commit table (roundOf postFailure N table))).1
        = (commit table (roundOf postFailure N table)).distances
      ∧ (roundOf postFailure N (commit table (roundOf postFailure N table))).2 = false := by
  have hsame : commit table (roundOf postFailure N table) = table := by
    unfold commit
    rw [roundOf_unchanged postFailure N table h]
  rw [hsame]
  exact ⟨roundOf_unchanged postFailure N table h, h⟩

theorem round_idempotent_witness :
    ((roundOf false 3 lineTable).2 = false ∧
      (roundOf false 3 (commit lineTable (roundOf false 3 lineTable))).1
          = (commit lineTable (roundOf false 3 lineTable)).distances
        ∧ (roundOf false 3 (commit lineTable (roundOf false 3 lineTable))).2 = false) ∧
    ((roundOf true 3 lineTable).2 = false ∧
      (roundOf true 3 (commit lineTable (roundOf true 3 lineTable))).1
          = (commit lineTable (roundOf true 3 lineTable)).distances
        ∧ (roundOf true 3 (commit lineTable (roundOf true 3 lineTable))).2 = false) :=
  ⟨⟨by decide, round_idempotent false 3 lineTable (by decide)⟩,
   ⟨by decide, round_idempotent true 3 lineTable (by decide)⟩⟩

/-! ## Failure injection -/

/-- C9. Failure injection, effect and frame: on a table of `N` rows and `N`
columns and labels `failSrc`, `failDest` in `[1, N]`, the injection step sets
`distances[failSrc][failDest]` and its mirror to `INT_MAX` and both mask
entries to `false`, keeps the shape, leaves every other entry of `distances`
and `neighbors` unchanged, and keeps a symmetric mask symmetric. -/
theorem injectFailure_effect_frame (N : Nat) (table : RoutingTable)
    (hd : Square N table.distances) (hn : Square N table.neighbors)
    (failSrc failDest : Nat) (hs : 1 ≤ failSrc ∧ failSrc ≤ N)
    (ht : 1 ≤ failDest ∧ failDest ≤ N) :
    distAt (injectFailure table failSrc failDest).distances (failSrc - 1) (failDest - 1) = INT_MAX
    ∧ distAt (injectFailure table failSrc failDest).distances (failDest - 1) (failSrc - 1) = INT_MAX
    ∧ nbrAt (injectFailure table failSrc failDest).neighbors (failSrc - 1) (failDest - 1) = false
    ∧ nbrAt (injectFailure table failSrc failDest).neighbors (failDest - 1) (failSrc - 1) = false
    ∧ Square N (injectFailure table failSrc failDest).distances
    ∧ Square N (injectFailure table failSrc failDest).neighbors
    ∧ (∀ a b, ¬ (a = failSrc - 1 ∧ b = failDest - 1) → ¬ (a = failDest - 1 ∧ b = failSrc - 1) →
        distAt (injectFailure table failSrc failDest).distances a b = distAt table.distances a b
        ∧ nbrAt (injectFailure table failSrc failDest).neighbors a b = nbrAt table.neighbors a b)
    ∧ ((∀ a b, nbrAt table.neighbors a b = nbrAt table.neighbors b a) →
        ∀ a b, nbrAt (injectFailure table failSrc failDest).neighbors a b
          = nbrAt (injectFailure table failSrc failDest).neighbors b a) := by
  have h1 : failSrc - 1 < N := by omega
  have h2 : failDest - 1 < N := by omega
  have hD : ∀ a b, distAt (injectFailure table failSrc failDest).distances a b =
      if a = failDest - 1 ∧ b = failSrc - 1 then INT_MAX
      else if a = failSrc - 1 ∧ b = failDest - 1 then INT_MAX
      else distAt table.distances a b := by
    intro a b
    unfold injectFailure distAt
    simp only
    rw [cell_setCell_sq 0 (square_setCell hd _ _ _) h2 h1, cell_setCell_sq 0 hd h1 h2]
  have hB : ∀ a b, nbrAt (injectFailure table failSrc failDest).neighbors a b =
      if a = failDest - 1 ∧ b = failSrc - 1 then false
      else if a = failSrc - 1 ∧ b = failDest - 1 then false
      else nbrAt table.neighbors a b := by
    intro a b
    unfold injectFailure nbrAt
    simp only
    rw [cell_setCell_sq false (square_setCell hn _ _ _) h2 h1, cell_setCell_sq false hn h1 h2]
  refine ⟨?_, ?_, ?_, ?_, ?_, ?_, ?_, ?_⟩
  · rw [hD]; simp
  · rw [hD]; simp
  · rw [hB]; simp
  · rw [hB]; simp
  · exact square_setCell (square_setCell hd _ _ _) _ _ _
  · exact square_setCell (square_setCell hn _ _ _) _ _ _
  · intro a b n1 n2
    rw [hD, hB, if_neg n2, if_neg n1, if_neg n2, if_neg n1]
    exact ⟨rfl, rfl⟩
  · intro hsym a b
    rw [hB, hB, hsym a b]
    by_cases c1 : a = failDest - 1 ∧ b = failSrc - 1
    · have c2 : b = failSrc - 1 ∧ a = failDest - 1 := ⟨c1.2, c1.1⟩
      simp [c1, c2]
    · by_cases c3 : a = failSrc - 1 ∧ b = failDest - 1
      · have c4 : b = failDest - 1 ∧ a = failSrc - 1 := ⟨c3.2, c3.1⟩
        simp [c3, c4]
      · have c5 : ¬ (b = failDest - 1 ∧ a = failSrc - 1) := fun h => c3 ⟨h.2, h.1⟩
        have c6 : ¬ (b = failSrc - 1 ∧ a = failDest - 1) := fun h => c1 ⟨h.2, h.1⟩
        rw [if_neg c1, if_neg c3, if_neg c5, if_neg c6]

theorem injectFailure_effect_frame_witness :
    distAt (injectFailure lineTable 1 2).distances (1 - 1) (2 - 1) = INT_MAX
    ∧ distAt (injectFailure lineTable 1 2).distances (2 - 1) (1 - 1) = INT_MAX
    ∧ nbrAt (injectFailure lineTable 1 2).neighbors (1 - 1) (2 - 1) = false
    ∧ nbrAt (injectFailure lineTable 1 2).neighbors (2 - 1) (1 - 1) = false
    ∧ Square 3 (injectFailure lineTable 1 2).distances
    ∧ Square 3 (injectFailure lineTable 1 2).neighbors
    ∧ (∀ a b, ¬ (a = 1 - 1 ∧ b = 2 - 1) → ¬ (a = 2 - 1 ∧ b = 1 - 1) →
        distAt (injectFailure lineTable 1 2).distances a b = distAt lineTable.distances a b
        ∧ nbrAt (injectFailure lineTable 1 2).neighbors a b = nbrAt lineTable.neighbors a b)
    ∧ ((∀ a b, nbrAt lineTable.neighbors a b = nbrAt lineTable.neighbors b a) →
        ∀ a b, nbrAt (injectFailure lineTable 1 2).neighbors a b
          = nbrAt (injectFailure lineTable 1 2).neighbors b a) :=
  injectFailure_effect_frame 3 lineTable
    ⟨by decide, by decide⟩ ⟨by decide, by decide⟩ 1 2 ⟨by decide, by decide⟩ ⟨by decide, by decide⟩

/-! ## The anomaly classifier -/

theorem scanRow_eq (table : RoutingTable) (i : Nat) (k : Nat) (pairs : List (Nat × Nat)) :
    (List.range k).foldl
        (fun pairs j =>
          if i ≠ j ∧ distAt table.distances i j ≠ INT_MAX
              ∧ distAt table.distances i j ≥ INFINITY_THRESHOLD then
            pairs ++ [(i, j)]
          else pairs)
        pairs
      = pairs ++ ((List.range k).filter fun j => flagged table i j).map fun j => (i, j) := by
  induction k with
  | zero => simp
  | succ k ih =>
    rw [List.range_succ, List.foldl_append, ih]
    simp only [List.foldl_cons, List.foldl_nil, List.filter_append, List.map_append]
    by_cases hc : i ≠ k ∧ distAt table.distances i k ≠ INT_MAX
        ∧ distAt table.distances i k ≥ INFINITY_THRESHOLD
    · have hf : flagged table i k = true := by simp [flagged, hc]
      rw [if_pos hc]
      simp [hf]
    · have hf : flagged table i k = false := by simp only [flagged, hc, decide_False]
      rw [if_neg hc]
      simp [hf]

theorem countToInfinityPairs_eq (N : Nat) (table : RoutingTable) :
    countToInfinityPairs N table = flaggedRowMajor N table := by
  unfold countToInfinityPairs flaggedRowMajor
  generalize hn : N = n
  have key : ∀ n : Nat, (List.range n).foldl
      (fun pairs i =>
        (List.range N).foldl
          (fun pairs j =>
            if i ≠ j ∧ distAt table.distances i j ≠ INT_MAX
                ∧ distAt table.distances i j ≥ INFINITY_THRESHOLD then
              pairs ++ [(i, j)]
            else pairs)
          pairs)
      [] = (List.range n).flatMap fun i =>
        ((List.range N).filter fun j => flagged table i j).map fun j => (i, j) := by
    intro n
    induction n with
    | zero => simp
    | succ n ih =>
      rw [List.range_succ, List.foldl_append, ih]
      simp only [List.foldl_cons, List.foldl_nil, List.flatMap_append]
      rw [scanRow_eq]
      simp
  subst hn
  exact key N

/-- C10. The anomaly classifier is exact: the list `countToInfinityPairs`
that `handleLinkFailure` reports is the scan of its final table, and for every
table the scan contains the ordered pair `(i, j)` of nodes below `N` if and
only if `i != j`, `distances[i][j] != INT_MAX` and `distances[i][j] >= 100`;
its entries are in strict row-major order, so each such pair occurs exactly
once; and a pair whose distance is `INT_MAX` is never listed. -/
theorem countToInfinityPairs_exact (N : Nat) (start : RoutingTable) (failSrc failDest : Nat)
    (table : RoutingTable) :
    (handleLinkFailure N start failSrc failDest).pairs
        = countToInfinityPairs N (handleLinkFailure N start failSrc failDest).table
    ∧ (∀ i j, (i, j) ∈ countToInfinityPairs N table ↔
      i < N ∧ j < N ∧ i ≠ j ∧ distAt table.distances i j ≠ INT_MAX
        ∧ distAt table.distances i j ≥ 100)
    ∧ (countToInfinityPairs N table).Pairwise rowMajorLt
    ∧ (countToInfinityPairs N table).Nodup
    ∧ (∀ i j, distAt table.distances i j = INT_MAX →
        (i, j) ∉ countToInfinityPairs N table) := by
  have hmem : ∀ i j, (i, j) ∈ countToInfinityPairs N table ↔
      i < N ∧ j < N ∧ i ≠ j ∧ distAt table.distances i j ≠ INT_MAX
        ∧ distAt table.distances i j ≥ 100 := by
    intro i j
    rw [countToInfinityPairs_eq]
    unfold flaggedRowMajor flagged INFINITY_THRESHOLD
    simp only [List.mem_flatMap, List.mem_map, List.mem_filter, List.mem_range,
      decide_eq_true_eq, Prod.mk.injEq]
    constructor
    · rintro ⟨a, ha, b, ⟨hb, hc⟩, rfl, rfl⟩
      exact ⟨ha, hb, hc⟩
    · rintro ⟨ha, hb, hc⟩
      exact ⟨i, ha, j, ⟨hb, hc⟩, rfl, rfl⟩
  have hpw : (countToInfinityPairs N table).Pairwise rowMajorLt := by
    rw [countToInfinityPairs_eq]
    unfold flaggedRowMajor
    rw [List.pairwise_flatMap]
    constructor
    · intro i _
      rw [List.pairwise_map]
      exact ((List.pairwise_lt_range N).filter _).imp (fun h => Or.inr ⟨rfl, h⟩)
    · refine (List.pairwise_lt_range N).imp ?_
      intro a b hab x hx y hy
      simp only [List.mem_map] at hx hy
      obtain ⟨_, _, rfl⟩ := hx
      obtain ⟨_, _, rfl⟩ := hy
      exact Or.inl hab
  refine ⟨rfl, hmem, hpw, ?_, ?_⟩
  · refine hpw.imp_of_mem ?_ |>.imp id
    intro a b _ _ h heq
    subst heq
    rcases h with h | ⟨_, h⟩
    · exact lt_irrefl _ h
    · exact lt_irrefl _ h
  · intro i j h hin
    exact ((hmem i j).1 hin).2.2.2.1 h

/-! ## The convergence loop -/

theorem afterRounds_succ_start (round : RoutingTable → List (List Int) × Bool)
    (table : RoutingTable) (r : Nat) :
    afterRounds round (commit table (round table)) r = afterRounds round table (r + 1) := by
  induction r with
  | zero => rfl
  | succ r ih =>
    show commit (afterRounds round (commit table (round table)) r) _ = _
    rw [ih]
    rfl

/-- The loop runs `r` rounds with `1 ≤ r`, every round before the last raised
the flag, and the last one either left it down or reached the cap. -/
theorem convergeLoop_spec (round : RoutingTable → List (List Int) × Bool) :
    ∀ (fuel : Nat) (table : RoutingTable) (iterations : Nat),
      0 < fuel → iterations + fuel = MAX_ITERATIONS →
      ∃ r, 1 ≤ r ∧ r ≤ fuel
        ∧ (convergeLoop round fuel table iterations).iterations = iterations + r
        ∧ (convergeLoop round fuel table iterations).table = afterRounds round table r
        ∧ (∀ s, s + 1 < r → (round (afterRounds round table s)).2 = true)
        ∧ ((round (afterRounds round table (r - 1))).2 = false
            ∨ iterations + r = MAX_ITERATIONS) := by
  intro fuel
  induction fuel with
  | zero => intro _ _ h; exact absurd h (Nat.lt_irrefl 0)
  | succ fuel ih =>
    intro table iterations _ hsum
    by_cases hcap : iterations + 1 ≥ MAX_ITERATIONS
    · refine ⟨1, le_refl 1, by omega, ?_, ?_, ?_, Or.inr (by omega)⟩
      · simp only [convergeLoop, hcap, if_true]
      · simp only [convergeLoop, hcap, if_true]
        rfl
      · intro s hs; omega
    · by_cases hupd : (round table).2 = true
      · have hfuel : 0 < fuel := by omega
        obtain ⟨r, h1, h2, h3, h4, h5, h6⟩ :=
          ih (commit table (round table)) (iterations + 1) hfuel (by omega)
        have hstep : convergeLoop round (fuel + 1) table iterations =
            convergeLoop round fuel (commit table (round table)) (iterations + 1) := by
          simp only [convergeLoop, hcap, if_false, hupd, if_true]
          rfl
        refine ⟨r + 1, by omega, by omega, ?_, ?_, ?_, ?_⟩
        · rw [hstep, h3]; omega
        · rw [hstep, h4, afterRounds_succ_start]
        · intro s hs
          cases s with
          | zero => exact hupd
          | succ s =>
            rw [← afterRounds_succ_start]
            exact h5 s (by omega)
        · rcases h6 with h6 | h6
          · left
            have : r + 1 - 1 = (r - 1) + 1 := by omega
            rw [this, ← afterRounds_succ_start]
            exact h6
          · right; omega
      · refine ⟨1, le_refl 1, by omega, ?_, ?_, ?_, Or.inl ?_⟩
        · simp only [convergeLoop, hcap, if_false, hupd]
          rfl
        · simp only [convergeLoop, hcap, if_false, hupd]
          rfl
        · intro s hs; omega
        · simpa using hupd

/-! ## Two nodes and their only link -/

theorem init_pair (c : Int) : initializeRoutingTable 2 [⟨1, 2, c⟩] = pairTable c := rfl

theorem addInt_zero_right (c : Int) (h0 : -2147483648 ≤ c) (h1 : c ≤ INT_MAX) : addInt c 0 = c := by
  unfold addInt
  unfold INT_MAX at h1
  omega

theorem dvrRound_pair (c : Int) (h0 : -2147483648 ≤ c) (h1 : c ≤ INT_MAX) :
    dvrRound 2 (pairTable c) = ((pairTable c).distances, false) := by
  have hm : ∀ a b, a < 2 → b < 2 → a ≠ b →
      ¬ minDistVia 2 (pairTable c) a b < distAt (pairTable c).distances a b := by
    intro a b ha hb hab
    have hz := addInt_zero_right c h0 h1
    have hne : (0 : Int) ≠ INT_MAX := by decide
    interval_cases a <;> interval_cases b <;>
      simp [minDistVia, List.range_succ, pairTable, nbrAt, distAt, cell, hz, hne,
        min_eq_right h1] at hab ⊢
  have hsq : Square 2 (pairTable c).distances :=
    ⟨rfl, fun i hi => by interval_cases i <;> rfl⟩
  obtain ⟨_, _, h3⟩ := dvrRound_spec 2 (pairTable c) hsq
  have hf : (dvrRound 2 (pairTable c)).2 = false := by
    by_contra hne
    have : (dvrRound 2 (pairTable c)).2 = true := by simpa using hne
    obtain ⟨a, b, ha, hb, hab, hlt⟩ := h3.1 this
    exact hm a b ha hb hab hlt
  have hu := roundOf_unchanged false 2 (pairTable c) hf
  exact Prod.ext hu hf

theorem dvr_pair (c : Int) (h0 : -2147483648 ≤ c) (h1 : c ≤ INT_MAX) :
    distanceVectorRouting 2 [⟨1, 2, c⟩] = { table := pairTable c, iterations := 1 } := by
  unfold distanceVectorRouting
  rw [init_pair]
  show convergeLoop (dvrRound 2) (99 + 1) (pairTable c) 0 = _
  rw [convergeLoop]
  simp [dvrRound_pair c h0 h1, MAX_ITERATIONS]


/-- C4. Disconnection is not reported as count-to-infinity: for `N = 2` with
the single edge `1 - 2` of any non-negative `int` cost `c`, after
`distanceVectorRouting` has converged and `handleLinkFailure` is called with
`(1, 2)`, the final table has `distances[1][2] = distances[2][1] = INT_MAX`
and the list of flagged pairs is empty. -/
theorem sole_link_failure_not_flagged (c : Int) (h0 : 0 ≤ c) (h1 : c ≤ INT_MAX) :
    distAt (handleLinkFailure 2 (distanceVectorRouting 2 [⟨1, 2, c⟩]).table 1 2).table.distances
        0 1 = INT_MAX
    ∧ distAt (handleLinkFailure 2 (distanceVectorRouting 2 [⟨1, 2, c⟩]).table 1 2).table.distances
        1 0 = INT_MAX
    ∧ (handleLinkFailure 2 (distanceVectorRouting 2 [⟨1, 2, c⟩]).table 1 2).pairs = [] := by
  rw [dvr_pair c (by omega) h1]
  have hinj : injectFailure (pairTable c) 1 2 =
      { distances := [[0, INT_MAX], [INT_MAX, 0]],
        neighbors := [[false, false], [false, false]] } := rfl
  unfold handleLinkFailure
  simp only [hinj]
  decide

theorem sole_link_failure_not_flagged_witness :
    distAt (handleLinkFailure 2 (distanceVectorRouting 2 [⟨1, 2, 7⟩]).table 1 2).table.distances
        0 1 = INT_MAX
    ∧ distAt (handleLinkFailure 2 (distanceVectorRouting 2 [⟨1, 2, 7⟩]).table 1 2).table.distances
        1 0 = INT_MAX
    ∧ (handleLinkFailure 2 (distanceVectorRouting 2 [⟨1, 2, 7⟩]).table 1 2).pairs = [] :=
  sole_link_failure_not_flagged 7 (by decide) (by decide)

/-! ## The line of three nodes -/

set_option maxRecDepth 1000000 in
/-- C3, as the program behaves. On the line `1 - 2 - 3` with unit costs,
`distanceVectorRouting` converges, and after `handleLinkFailure` with `(1, 2)`
the entry `distances[2][1]` holds `t + 2` after every odd round `t` and
`INT_MAX` after every even round; the loop runs into the cap of 100 rounds, and
the flagged list then contains the pair `(3, 1)`, whose distance 102 is finite
and at least 100. -/
theorem line3_alternates_and_flags_node3 :
    (distanceVectorRouting 3 line3).table = lineTable
    ∧ (distanceVectorRouting 3 line3).iterations < MAX_ITERATIONS
    ∧ (handleLinkFailure 3 (distanceVectorRouting 3 line3).table 1 2).table
        = afterRounds (failRound 3) (injectFailure (distanceVectorRouting 3 line3).table 1 2) 100
    ∧ (∀ t, t < 101 →
        distAt (afterRounds (failRound 3)
            (injectFailure (distanceVectorRouting 3 line3).table 1 2) t).distances 1 0
          = if t % 2 = 1 then (t : Int) + 2 else INT_MAX)
    ∧ (2, 0) ∈ (handleLinkFailure 3 (distanceVectorRouting 3 line3).table 1 2).pairs
    ∧ distAt (handleLinkFailure 3 (distanceVectorRouting 3 line3).table 1 2).table.distances 2 0
        = 102 := by
  decide!

set_option maxRecDepth 1000000 in
/-- C3 fails as stated: on the line `1 - 2 - 3`, after the failure of `(1, 2)`,
the entry `distances[2][1]` drops from `INT_MAX` after round 2 to 5 after round
3, it is `INT_MAX` when the loop stops, and the pair `(2, 1)` is not in the
flagged list, whose only entry is the pair `(3, 1)`. -/
theorem line3_pair_2_1_not_flagged :
    distAt (afterRounds (failRound 3)
        (injectFailure (distanceVectorRouting 3 line3).table 1 2) 3).distances 1 0
      < distAt (afterRounds (failRound 3)
        (injectFailure (distanceVectorRouting 3 line3).table 1 2) 2).distances 1 0
    ∧ distAt (handleLinkFailure 3 (distanceVectorRouting 3 line3).table 1 2).table.distances 1 0
        = INT_MAX
    ∧ (1, 0) ∉ (handleLinkFailure 3 (distanceVectorRouting 3 line3).table 1 2).pairs
    ∧ (handleLinkFailure 3 (distanceVectorRouting 3 line3).table 1 2).pairs = [(2, 0)] := by
  decide!

/-! ## Symmetry -/

/-- C6 fails as stated: on `asym5` the second round of `distanceVectorRouting`
(the run takes four) commits `distances[1][5] = 4` but `distances[5][1] = 102`. -/
theorem symmetry_lost_in_round_two :
    (distanceVectorRouting 5 asym5).iterations = 4
    ∧ distAt (afterRounds (dvrRound 5) (initializeRoutingTable 5 asym5) 2).distances 0 4 = 4
    ∧ distAt (afterRounds (dvrRound 5) (initializeRoutingTable 5 asym5) 2).distances 4 0 = 102 := by
  decide

/-! ## The initial table -/

theorem cell_replicate {α : Type} (dflt x : α) (N a b : Nat) (ha : a < N) (hb : b < N) :
    cell dflt (List.replicate N (List.replicate N x)) a b = x := by
  unfold cell
  simp [List.getElem?_replicate, ha, hb]

theorem square_replicate {α : Type} (x : α) (N : Nat) :
    Square N (List.replicate N (List.replicate N x)) := by
  refine ⟨by simp, fun i hi => ?_⟩
  simp [List.getElem?_replicate, hi]

theorem new_spec (N : Nat) :
    Square N (RoutingTable.new N).distances ∧ Square N (RoutingTable.new N).neighbors ∧
    ∀ a b, a < N → b < N →
      distAt (RoutingTable.new N).distances a b = (if a = b then 0 else INT_MAX) ∧
      nbrAt (RoutingTable.new N).neighbors a b = false := by
  have key : ∀ n, n ≤ N →
      Square N ((List.range n).foldl (fun distances i => setCell distances i i (0 : Int))
        (List.replicate N (List.replicate N INT_MAX))) ∧
      ∀ a b, a < N → b < N →
        distAt ((List.range n).foldl (fun distances i => setCell distances i i (0 : Int))
          (List.replicate N (List.replicate N INT_MAX))) a b
          = if a = b ∧ a < n then 0 else INT_MAX := by
    intro n
    induction n with
    | zero =>
      intro _
      refine ⟨by simpa using square_replicate INT_MAX N, fun a b ha hb => ?_⟩
      simp only [List.range_zero, List.foldl_nil, Nat.not_lt_zero, and_false, if_false]
      exact cell_replicate 0 INT_MAX N a b ha hb
    | succ n ih =>
      intro hn
      obtain ⟨ih1, ih2⟩ := ih (Nat.le_of_succ_le hn)
      rw [List.range_succ, List.foldl_append]
      simp only [List.foldl_cons, List.foldl_nil]
      refine ⟨square_setCell ih1 _ _ _, fun a b ha hb => ?_⟩
      unfold distAt at ih2 ⊢
      rw [cell_setCell_sq 0 ih1 hn hn, ih2 a b ha hb]
      by_cases h1 : a = n ∧ b = n
      · obtain ⟨rfl, rfl⟩ := h1
        simp
      · rw [if_neg h1]
        by_cases h2 : a = b
        · subst h2
          have : a ≠ n := fun h => h1 ⟨h, h⟩
          have : a < n + 1 ↔ a < n := by omega
          simp only [true_and, this]
        · simp only [h2, false_and]
  obtain ⟨k1, k2⟩ := key N (Nat.le_refl N)
  refine ⟨k1, square_replicate false N, fun a b ha hb => ⟨?_, ?_⟩⟩
  · show distAt ((List.range N).foldl _ _) a b = _
    rw [k2 a b ha hb]
    simp only [ha, and_true]
  · exact cell_replicate false false N a b ha hb

theorem initialize_append (N : Nat) (edges : List Edge) (e : Edge) :
    initializeRoutingTable N (edges ++ [e]) = addEdge (initializeRoutingTable N edges) e := by
  unfold initializeRoutingTable
  rw [List.foldl_append]
  rfl

theorem linkCost_append (edges : List Edge) (e : Edge) (i j : Nat) :
    linkCost (edges ++ [e]) i j = if e.joins i j = true then some e.cost else linkCost edges i j := by
  unfold linkCost
  rw [List.reverse_append, List.reverse_singleton, List.singleton_append, List.find?_cons]
  cases e.joins i j <;> simp

theorem joins_iff (e : Edge) (h1 : 1 ≤ e.src) (h2 : 1 ≤ e.dest) (a b : Nat) :
    e.joins a b = true ↔
      (a = e.dest - 1 ∧ b = e.src - 1) ∨ (a = e.src - 1 ∧ b = e.dest - 1) := by
  unfold Edge.joins
  simp only [decide_eq_true_eq]
  omega

theorem addEdge_spec (N : Nat) (t : RoutingTable) (e : Edge)
    (hd : Square N t.distances) (hn : Square N t.neighbors)
    (h1 : 1 ≤ e.src) (h2 : e.src ≤ N) (h3 : 1 ≤ e.dest) (h4 : e.dest ≤ N) :
    Square N (addEdge t e).distances ∧ Square N (addEdge t e).neighbors ∧
    ∀ a b,
      distAt (addEdge t e).distances a b
        = (if e.joins a b = true then e.cost else distAt t.distances a b) ∧
      nbrAt (addEdge t e).neighbors a b
        = (if e.joins a b = true then true else nbrAt t.neighbors a b) := by
  have hs : e.src - 1 < N := by omega
  have ht : e.dest - 1 < N := by omega
  refine ⟨square_setCell (square_setCell hd _ _ _) _ _ _,
    square_setCell (square_setCell hn _ _ _) _ _ _, fun a b => ⟨?_, ?_⟩⟩
  · unfold addEdge distAt
    simp only
    rw [cell_setCell_sq 0 (square_setCell hd _ _ _) ht hs, cell_setCell_sq 0 hd hs ht]
    by_cases c1 : a = e.dest - 1 ∧ b = e.src - 1
    · rw [if_pos c1, if_pos ((joins_iff e h1 h3 a b).2 (Or.inl c1))]
    · by_cases c2 : a = e.src - 1 ∧ b = e.dest - 1
      · rw [if_neg c1, if_pos c2, if_pos ((joins_iff e h1 h3 a b).2 (Or.inr c2))]
      · have : ¬ e.joins a b = true := fun h => by
          rcases (joins_iff e h1 h3 a b).1 h with h | h
          · exact c1 h
          · exact c2 h
        rw [if_neg c1, if_neg c2, if_neg this]
  · unfold addEdge nbrAt
    simp only
    rw [cell_setCell_sq false (square_setCell hn _ _ _) ht hs, cell_setCell_sq false hn hs ht]
    by_cases c1 : a = e.dest - 1 ∧ b = e.src - 1
    · rw [if_pos c1, if_pos ((joins_iff e h1 h3 a b).2 (Or.inl c1))]
    · by_cases c2 : a = e.src - 1 ∧ b = e.dest - 1
      · rw [if_neg c1, if_pos c2, if_pos ((joins_iff e h1 h3 a b).2 (Or.inr c2))]
      · have : ¬ e.joins a b = true := fun h => by
          rcases (joins_iff e h1 h3 a b).1 h with h | h
          · exact c1 h
          · exact c2 h
        rw [if_neg c1, if_neg c2, if_neg this]

/-- The table built by `initializeRoutingTable`, entry by entry, for labels in
`[1, N]`: the mask marks the joined pairs; a joined pair holds the cost of the
last edge joining it; an entry no edge has written holds 0 on the diagonal and
`INT_MAX` elsewhere. -/
theorem initialize_spec (N : Nat) (edges : List Edge)
    (hv : ∀ e ∈ edges, 1 ≤ e.src ∧ e.src ≤ N ∧ 1 ≤ e.dest ∧ e.dest ≤ N) :
    Square N (initializeRoutingTable N edges).distances ∧
    Square N (initializeRoutingTable N edges).neighbors ∧
    ∀ a b, a < N → b < N →
      nbrAt (initializeRoutingTable N edges).neighbors a b = (linkCost edges a b).isSome ∧
      distAt (initializeRoutingTable N edges).distances a b
        = (linkCost edges a b).getD (if a = b then 0 else INT_MAX) := by
  induction edges using List.reverseRecOn with
  | nil =>
    obtain ⟨n1, n2, n3⟩ := new_spec N
    refine ⟨n1, n2, fun a b ha hb => ?_⟩
    obtain ⟨n4, n5⟩ := n3 a b ha hb
    exact ⟨by simpa [linkCost, initializeRoutingTable] using n5,
      by simpa [linkCost, initializeRoutingTable] using n4⟩
  | append_singleton l e ih =>
    have hl : ∀ e ∈ l, 1 ≤ e.src ∧ e.src ≤ N ∧ 1 ≤ e.dest ∧ e.dest ≤ N :=
      fun x hx => hv x (List.mem_append_left _ hx)
    obtain ⟨i1, i2, i3⟩ := ih hl
    obtain ⟨e1, e2, e3, e4⟩ := hv e (by simp)
    rw [initialize_append]
    obtain ⟨s1, s2, s3⟩ := addEdge_spec N _ e i1 i2 e1 e2 e3 e4
    refine ⟨s1, s2, fun a b ha hb => ?_⟩
    obtain ⟨s4, s5⟩ := s3 a b
    obtain ⟨i4, i5⟩ := i3 a b ha hb
    rw [s4, s5, linkCost_append, i4, i5]
    by_cases hj : e.joins a b = true
    · simp [hj]
    · simp [hj]

/-! ## Walks -/

theorem walkEnd_append (a : Nat) (p q : List Nat) :
    walkEnd a (p ++ q) = walkEnd (walkEnd a p) q := by
  induction p generalizing a with
  | nil => rfl
  | cons k rest ih => exact ih k

theorem walkCost_cons (w : Nat → Nat → Option Int) (a k : Nat) (rest : List Nat) (c : Int) :
    walkCost w a (k :: rest) = some c ↔
      ∃ c1 c2, w a k = some c1 ∧ walkCost w k rest = some c2 ∧ c = c1 + c2 := by
  simp only [walkCost]
  cases h1 : w a k with
  | none => simp
  | some c1 =>
    cases h2 : walkCost w k rest with
    | none => simp
    | some c2 =>
      simp only [Option.some.injEq]
      constructor
      · intro h; exact ⟨c1, c2, rfl, rfl, h.symm⟩
      · rintro ⟨x, y, rfl, rfl, h⟩; exact h.symm

theorem walkCost_append (w : Nat → Nat → Option Int) (a : Nat) (p q : List Nat) (x y : Int)
    (hp : walkCost w a p = some x) (hq : walkCost w (walkEnd a p) q = some y) :
    walkCost w a (p ++ q) = some (x + y) := by
  induction p generalizing a x with
  | nil =>
    simp only [walkCost, Option.some.injEq] at hp
    subst hp
    simpa [walkEnd] using hq
  | cons k rest ih =>
    obtain ⟨c1, c2, h1, h2, rfl⟩ := (walkCost_cons w a k rest x).1 hp
    have := ih k c2 h2 hq
    rw [List.cons_append, walkCost_cons]
    exact ⟨c1, c2 + y, h1, this, by ring⟩

theorem walkCost_nonneg (N : Nat) (w : Nat → Nat → Option Int) (hw : GraphOn N w)
    (a : Nat) (p : List Nat) (c : Int) (h : walkCost w a p = some c) : 0 ≤ c := by
  induction p generalizing a c with
  | nil =>
    simp only [walkCost, Option.some.injEq] at h
    omega
  | cons k rest ih =>
    obtain ⟨c1, c2, h1, h2, rfl⟩ := (walkCost_cons w a k rest c).1 h
    have := ih k c2 h2
    have := (hw a k c1 h1).2.2
    omega

theorem walkEnd_lt (N : Nat) (w : Nat → Nat → Option Int) (hw : GraphOn N w)
    (a : Nat) (ha : a < N) (p : List Nat) (c : Int) (h : walkCost w a p = some c) :
    walkEnd a p < N := by
  induction p generalizing a c with
  | nil => exact ha
  | cons k rest ih =>
    obtain ⟨c1, c2, h1, h2, rfl⟩ := (walkCost_cons w a k rest c).1 h
    exact ih k (hw a k c1 h1).2.1 c2 h2

/-! ## Exact sums -/

theorem addInt_exact (x y : Int) (h0 : 0 ≤ x + y) (h1 : x + y < INT_MAX) :
    addInt x y = x + y := by
  unfold addInt
  unfold INT_MAX at h1
  omega

theorem minDistVia_le_sum (N : Nat) (w : Nat → Nat → Option Int) (t : RoutingTable)
    (ha : Anchored N w t) (hs : SumsBelowMax N t) (i j k : Nat)
    (hi : i < N) (hj : j < N) (hk : k < N) (hij : i ≠ j)
    (hn : nbrAt t.neighbors i k = true) (hf : distAt t.distances k j ≠ INT_MAX) :
    minDistVia N t i j ≤ distAt t.distances i k + distAt t.distances k j
    ∧ distAt t.distances i k + distAt t.distances k j < INT_MAX := by
  have hlt := hs i hi j hj k hk ⟨hij, hn, hf⟩
  obtain ⟨_, _, hb, _, _⟩ := ha
  have h0 : 0 ≤ distAt t.distances i k + distAt t.distances k j := by
    have := (hb i k hi hk).1
    have := (hb k j hk hj).1
    omega
  have := (minDistVia_spec N t i j).2.1 k hk hn hf
  rw [addInt_exact _ _ h0 hlt] at this
  exact ⟨this, hlt⟩

theorem minDistVia_eq_sum (N : Nat) (w : Nat → Nat → Option Int) (t : RoutingTable)
    (ha : Anchored N w t) (hs : SumsBelowMax N t) (i j : Nat)
    (hi : i < N) (hj : j < N) (hij : i ≠ j) :
    minDistVia N t i j = INT_MAX ∨
      ∃ k, k < N ∧ nbrAt t.neighbors i k = true ∧ distAt t.distances k j ≠ INT_MAX ∧
        minDistVia N t i j = distAt t.distances i k + distAt t.distances k j ∧
        0 ≤ distAt t.distances i k ∧ 0 ≤ distAt t.distances k j ∧
        distAt t.distances i k + distAt t.distances k j < INT_MAX := by
  rcases (minDistVia_spec N t i j).2.2 with h | ⟨k, hk, hn, hf, he⟩
  · exact Or.inl h
  · right
    have hlt := hs i hi j hj k hk ⟨hij, hn, hf⟩
    obtain ⟨_, _, hb, _, _⟩ := ha
    have b1 := (hb i k hi hk).1
    have b2 := (hb k j hk hj).1
    rw [addInt_exact _ _ (by omega) hlt] at he
    exact ⟨k, hk, hn, hf, he, b1, b2, hlt⟩

/-! ## What the rounds preserve -/

theorem anchored_dvrRound (N : Nat) (w : Nat → Nat → Option Int) (t : RoutingTable)
    (ha : Anchored N w t) (hs : SumsBelowMax N t) :
    Anchored N w (commit t (dvrRound N t)) := by
  obtain ⟨s1, s2, _⟩ := dvrRound_spec N t ha.1
  obtain ⟨a1, a2, a3, a4, a5⟩ := id ha
  refine ⟨s1, fun a ha' => ?_, fun a b ha' hb' => ?_, fun a b ha' hb' hn => ?_, a5⟩
  · show distAt (dvrRound N t).1 a a = 0
    rw [s2 a a]
    simp [a2 a ha']
  · show 0 ≤ distAt (dvrRound N t).1 a b ∧ distAt (dvrRound N t).1 a b ≤ INT_MAX
    rw [s2 a b]
    split
    · rename_i hc
      obtain ⟨_, _, hab, hlt⟩ := hc
      have hle := (a3 a b ha' hb').2
      rcases minDistVia_eq_sum N w t ha hs a b ha' hb' hab with h | ⟨k, _, _, _, he, p1, p2, p3⟩
      · omega
      · omega
    · exact a3 a b ha' hb'
  · obtain ⟨c, hc1, hc2⟩ := a4 a b ha' hb' hn
    refine ⟨c, hc1, le_trans ?_ hc2⟩
    exact dvrRound_le_before N t a b

theorem anchored_failRound (N : Nat) (w : Nat → Nat → Option Int) (t : RoutingTable)
    (ha : Anchored N w t) (hs : SumsBelowMax N t) :
    Anchored N w (commit t (failRound N t)) := by
  obtain ⟨s1, s2, _⟩ := failRound_spec N t ha.1
  obtain ⟨a1, a2, a3, a4, a5⟩ := id ha
  refine ⟨s1, fun a ha' => ?_, fun a b ha' hb' => ?_, fun a b ha' hb' hn => ?_, a5⟩
  · show distAt (failRound N t).1 a a = 0
    rw [s2 a a]
    simp [a2 a ha']
  · show 0 ≤ distAt (failRound N t).1 a b ∧ distAt (failRound N t).1 a b ≤ INT_MAX
    rw [s2 a b]
    split
    · rename_i hc
      obtain ⟨_, _, hab, _⟩ := hc
      rcases minDistVia_eq_sum N w t ha hs a b ha' hb' hab with h | ⟨k, _, _, _, he, p1, p2, p3⟩
      · rw [h]; decide
      · omega
    · exact a3 a b ha' hb'
  · obtain ⟨c, hc1, hc2⟩ := a4 a b ha' hb' hn
    refine ⟨c, hc1, le_trans ?_ hc2⟩
    show distAt (failRound N t).1 a b ≤ distAt t.distances a b
    rw [s2 a b]
    split
    · rename_i hc
      obtain ⟨_, _, hab, _⟩ := hc
      have hbb : distAt t.distances b b ≠ INT_MAX := by rw [a2 b hb']; decide
      have := (minDistVia_le_sum N w t ha hs a b b ha' hb' hb' hab hn hbb).1
      rw [a2 b hb'] at this
      omega
    · exact le_refl _

theorem realised_dvrRound (N : Nat) (w : Nat → Nat → Option Int) (t : RoutingTable)
    (ha : Anchored N w t) (hr : Realised N w t) (hs : SumsBelowMax N t) :
    Realised N w (commit t (dvrRound N t)) := by
  obtain ⟨_, s2, _⟩ := dvrRound_spec N t ha.1
  intro a b ha' hb'
  show distAt (dvrRound N t).1 a b ≠ INT_MAX →
    ∃ p, walkEnd a p = b ∧ walkCost w a p = some (distAt (dvrRound N t).1 a b)
  rw [s2 a b]
  split
  · rename_i hc
    obtain ⟨_, _, hab, _⟩ := hc
    intro hne
    rcases minDistVia_eq_sum N w t ha hs a b ha' hb' hab with h | ⟨k, hk, _, hf, he, p1, p2, p3⟩
    · exact absurd h hne
    · have hak : distAt t.distances a k ≠ INT_MAX := by omega
      obtain ⟨q1, e1, c1⟩ := hr a k ha' hk hak
      obtain ⟨q2, e2, c2⟩ := hr k b hk hb' hf
      refine ⟨q1 ++ q2, ?_, ?_⟩
      · rw [walkEnd_append, e1, e2]
      · rw [he]
        exact walkCost_append w a q1 q2 _ _ c1 (by rw [e1]; exact c2)
  · exact hr a b ha' hb'

/-- At a table that no round improves, every entry is at most the length of
every walk of the graph between its two nodes, and is not `INT_MAX` when such a
walk exists. -/
theorem stable_le_walk (N : Nat) (w : Nat → Nat → Option Int) (t : RoutingTable)
    (hw : GraphOn N w) (ha : Anchored N w t) (hs : SumsBelowMax N t)
    (hfix : ∀ a b, a < N → b < N → a ≠ b →
      ¬ minDistVia N t a b < distAt t.distances a b) :
    ∀ p a c, a < N → walkCost w a p = some c →
      distAt t.distances a (walkEnd a p) ≤ c
        ∧ distAt t.distances a (walkEnd a p) ≠ INT_MAX := by
  obtain ⟨a1, a2, a3, a4, a5⟩ := id ha
  intro p
  induction p with
  | nil =>
    intro a c ha' hc
    simp only [walkCost, Option.some.injEq] at hc
    subst hc
    show distAt t.distances a a ≤ 0 ∧ distAt t.distances a a ≠ INT_MAX
    rw [a2 a ha']
    exact ⟨le_refl _, by decide⟩
  | cons k rest ih =>
    intro a c ha' hc
    have hnn := walkCost_nonneg N w hw a (k :: rest) c hc
    have hend := walkEnd_lt N w hw a ha' (k :: rest) c hc
    obtain ⟨c1, c2, h1, h2, rfl⟩ := (walkCost_cons w a k rest c).1 hc
    have hk : k < N := (hw a k c1 h1).2.1
    obtain ⟨i1, i2⟩ := ih k c2 hk h2
    show distAt t.distances a (walkEnd k rest) ≤ c1 + c2
      ∧ distAt t.distances a (walkEnd k rest) ≠ INT_MAX
    have hend' : walkEnd k rest < N := hend
    by_cases hab : a = walkEnd k rest
    · rw [← hab, a2 a ha']
      exact ⟨hnn, by decide⟩
    · have hn := a5 a k c1 h1
      obtain ⟨m1, m2⟩ := minDistVia_le_sum N w t ha hs a (walkEnd k rest) k ha' hend' hk hab hn i2
      obtain ⟨c', e1, e2⟩ := a4 a k ha' hk hn
      rw [h1] at e1
      simp only [Option.some.injEq] at e1
      subst e1
      have := hfix a (walkEnd k rest) ha' hend' hab
      constructor <;> omega

/-! ## The failure-free run -/

theorem linkCost_some (N : Nat) (edges : List Edge) (hv : ValidEdges N edges)
    (a b : Nat) (c : Int) (h : linkCost edges a b = some c) :
    a < N ∧ b < N ∧ a ≠ b ∧ 0 ≤ c := by
  unfold linkCost at h
  obtain ⟨e, he, rfl⟩ := Option.map_eq_some'.1 h
  have hj := List.find?_some he
  have hm : e ∈ edges := List.mem_reverse.1 (List.mem_of_find?_eq_some he)
  obtain ⟨v1, v2, v3, v4, v5, v6⟩ := hv e hm
  unfold Edge.joins at hj
  simp only [decide_eq_true_eq] at hj
  refine ⟨?_, ?_, ?_, v6⟩ <;> omega

theorem graphOn_linkCost (N : Nat) (edges : List Edge) (hv : ValidEdges N edges) :
    GraphOn N (linkCost edges) := by
  intro a b c h
  obtain ⟨h1, h2, _, h4⟩ := linkCost_some N edges hv a b c h
  exact ⟨h1, h2, h4⟩

theorem validEdges_labels (N : Nat) (edges : List Edge) (hv : ValidEdges N edges) :
    ∀ e ∈ edges, 1 ≤ e.src ∧ e.src ≤ N ∧ 1 ≤ e.dest ∧ e.dest ≤ N := by
  intro e he
  obtain ⟨v1, v2, v3, v4, _, _⟩ := hv e he
  exact ⟨v1, v2, v3, v4⟩

theorem linkCost_self (N : Nat) (edges : List Edge) (hv : ValidEdges N edges) (a : Nat) :
    linkCost edges a a = none := by
  cases h : linkCost edges a a with
  | none => rfl
  | some c => exact absurd rfl (linkCost_some N edges hv a a c h).2.2.1

theorem initialize_anchored (N : Nat) (edges : List Edge) (hv : ValidEdges N edges)
    (hs : SumsBelowMax N (initializeRoutingTable N edges)) :
    Anchored N (linkCost edges) (initializeRoutingTable N edges) := by
  obtain ⟨i1, _, i3⟩ := initialize_spec N edges (validEdges_labels N edges hv)
  have hdiag : ∀ a, a < N → distAt (initializeRoutingTable N edges).distances a a = 0 := by
    intro a ha
    rw [(i3 a a ha ha).2, linkCost_self N edges hv a]
    simp
  have hnbr : ∀ a b, a < N → b < N →
      nbrAt (initializeRoutingTable N edges).neighbors a b = true →
      ∃ c, linkCost edges a b = some c ∧
        distAt (initializeRoutingTable N edges).distances a b = c := by
    intro a b ha hb hn
    rw [(i3 a b ha hb).1] at hn
    obtain ⟨c, hc⟩ := Option.isSome_iff_exists.1 hn
    exact ⟨c, hc, by rw [(i3 a b ha hb).2, hc]; rfl⟩
  have hmask : ∀ a b c, linkCost edges a b = some c →
      nbrAt (initializeRoutingTable N edges).neighbors a b = true := by
    intro a b c h
    obtain ⟨ha, hb, _, _⟩ := linkCost_some N edges hv a b c h
    rw [(i3 a b ha hb).1, h]
    rfl
  refine ⟨i1, hdiag, fun a b ha hb => ?_, fun a b ha hb hn => ?_, hmask⟩
  · cases h : linkCost edges a b with
    | none =>
      rw [(i3 a b ha hb).2, h]
      by_cases hab : a = b
      · simp [hab, INT_MAX]
      · simp [hab, INT_MAX]
    | some c =>
      obtain ⟨_, _, hab, hc0⟩ := linkCost_some N edges hv a b c h
      have hn := hmask a b c h
      have hd : distAt (initializeRoutingTable N edges).distances a b = c := by
        rw [(i3 a b ha hb).2, h]; rfl
      have hbb : distAt (initializeRoutingTable N edges).distances b b ≠ INT_MAX := by
        rw [hdiag b hb]; decide
      have := hs a ha b hb b hb ⟨hab, hn, hbb⟩
      rw [hdiag b hb, hd] at this
      rw [hd]
      omega
  · obtain ⟨c, hc1, hc2⟩ := hnbr a b ha hb hn
    exact ⟨c, hc1, le_of_eq hc2⟩

theorem initialize_realised (N : Nat) (edges : List Edge) (hv : ValidEdges N edges) :
    Realised N (linkCost edges) (initializeRoutingTable N edges) := by
  obtain ⟨_, _, i3⟩ := initialize_spec N edges (validEdges_labels N edges hv)
  intro a b ha hb hne
  rw [(i3 a b ha hb).2] at hne ⊢
  cases h : linkCost edges a b with
  | none =>
    rw [h] at hne
    by_cases hab : a = b
    · subst hab
      exact ⟨[], rfl, by simp [walkCost]⟩
    · simp [hab] at hne
  | some c =>
    refine ⟨[b], rfl, ?_⟩
    rw [walkCost_cons]
    exact ⟨c, 0, h, rfl, by simp⟩

theorem dvr_run_invariants (N : Nat) (edges : List Edge) (hv : ValidEdges N edges) (r : Nat)
    (hs : ∀ s, s ≤ r →
      SumsBelowMax N (afterRounds (dvrRound N) (initializeRoutingTable N edges) s)) :
    Anchored N (linkCost edges) (afterRounds (dvrRound N) (initializeRoutingTable N edges) r)
    ∧ Realised N (linkCost edges)
        (afterRounds (dvrRound N) (initializeRoutingTable N edges) r) := by
  induction r with
  | zero =>
    exact ⟨initialize_anchored N edges hv (hs 0 (Nat.le_refl 0)), initialize_realised N edges hv⟩
  | succ r ih =>
    obtain ⟨i1, i2⟩ := ih (fun s hsr => hs s (Nat.le_succ_of_le hsr))
    have hr := hs r (Nat.le_succ r)
    exact ⟨anchored_dvrRound N _ _ i1 hr, realised_dvrRound N _ _ i1 i2 hr⟩

/-- A loop that stops before the cap stops on a round that raised no flag; the
table it returns is the one that round was applied to. -/
theorem convergeLoop_stable (postFailure : Bool) (N : Nat) (table : RoutingTable)
    (hstop : (convergeLoop (roundOf postFailure N) MAX_ITERATIONS table 0).iterations
      < MAX_ITERATIONS) :
    ∃ r, (convergeLoop (roundOf postFailure N) MAX_ITERATIONS table 0).iterations = r + 1
      ∧ (convergeLoop (roundOf postFailure N) MAX_ITERATIONS table 0).table
          = afterRounds (roundOf postFailure N) table r
      ∧ (roundOf postFailure N (afterRounds (roundOf postFailure N) table r)).2 = false := by
  obtain ⟨r, h1, _, h3, h4, _, h6⟩ :=
    convergeLoop_spec (roundOf postFailure N) MAX_ITERATIONS table 0 (by decide) (by simp)
  rw [h3] at hstop
  have hlast : (roundOf postFailure N
      (afterRounds (roundOf postFailure N) table (r - 1))).2 = false := by
    rcases h6 with h | h
    · exact h
    · omega
  refine ⟨r - 1, by rw [h3]; omega, ?_, hlast⟩
  rw [h4]
  have hr : r = (r - 1) + 1 := by omega
  rw [hr]
  show commit _ _ = _
  simp only [Nat.add_sub_cancel]
  unfold commit
  rw [roundOf_unchanged postFailure N _ hlast]

theorem roundOf_false (N : Nat) : roundOf false N = dvrRound N := by
  funext t
  simp [roundOf]

theorem roundOf_true (N : Nat) : roundOf true N = failRound N := by
  funext t
  simp [roundOf]

/-- The table returned by a run that stops before the cap: anchored to the
graph, every finite entry the length of a walk, and no entry improved by one
more round. -/
theorem dvr_stable_table (N : Nat) (edges : List Edge) (hv : ValidEdges N edges)
    (hsum : ∀ s, s < (distanceVectorRouting N edges).iterations →
      SumsBelowMax N (afterRounds (dvrRound N) (initializeRoutingTable N edges) s))
    (hstop : (distanceVectorRouting N edges).iterations < MAX_ITERATIONS) :
    Anchored N (linkCost edges) (distanceVectorRouting N edges).table
    ∧ Realised N (linkCost edges) (distanceVectorRouting N edges).table
    ∧ SumsBelowMax N (distanceVectorRouting N edges).table
    ∧ ∀ a b, a < N → b < N → a ≠ b →
        ¬ minDistVia N (distanceVectorRouting N edges).table a b
          < distAt (distanceVectorRouting N edges).table.distances a b := by
  unfold distanceVectorRouting at hsum hstop ⊢
  rw [← roundOf_false] at hsum hstop ⊢
  obtain ⟨r, h1, h2, h3⟩ := convergeLoop_stable false N _ hstop
  rw [h1] at hsum
  rw [h2]
  rw [roundOf_false] at hsum h3 ⊢
  obtain ⟨ha, hr⟩ := dvr_run_invariants N edges hv r (fun s hs => hsum s (by omega))
  have hs := hsum r (by omega)
  generalize afterRounds (dvrRound N) (initializeRoutingTable N edges) r = t at ha hr hs h3 ⊢
  refine ⟨ha, hr, hs, ?_⟩
  intro a b ha' hb' hab hlt
  have := (dvrRound_spec N t ha.1).2.2.2 ⟨a, b, ha', hb', hab, hlt⟩
  rw [h3] at this
  exact Bool.noConfusion this

/-- C1, as the program behaves. A failure-free run computes shortest paths.
For a topology with endpoints in `[1, N]`, no self-loops and non-negative
costs, small enough that every sum formed in a round of the run stays below
`INT_MAX` (the value the program reserves for infinity): if
`distanceVectorRouting` stops before the cap of 100 rounds, that is on a round
without change, then for every pair `i`, `j` (equal or not) the final
`distances[i][j]` is `INT_MAX` exactly when `j` is unreachable from `i` in the
undirected graph of the edges (last cost wins for a repeated edge), and is
otherwise the length of a shortest path from `i` to `j`. -/
theorem dvr_computes_shortest_paths (N : Nat) (edges : List Edge) (hv : ValidEdges N edges)
    (hsum : ∀ s, s < (distanceVectorRouting N edges).iterations →
      SumsBelowMax N (afterRounds (dvrRound N) (initializeRoutingTable N edges) s))
    (hstop : (distanceVectorRouting N edges).iterations < MAX_ITERATIONS)
    (i j : Nat) (hi : i < N) (hj : j < N) :
    (distAt (distanceVectorRouting N edges).table.distances i j = INT_MAX
        ↔ Unreachable (linkCost edges) i j)
    ∧ (distAt (distanceVectorRouting N edges).table.distances i j ≠ INT_MAX →
        IsShortestDist (linkCost edges) i j
          (distAt (distanceVectorRouting N edges).table.distances i j)) := by
  have hw := graphOn_linkCost N edges hv
  obtain ⟨ha, hr, hs, hfix⟩ := dvr_stable_table N edges hv hsum hstop
  have hle := stable_le_walk N (linkCost edges) _ hw ha hs hfix
  refine ⟨⟨fun hinf p hend => ?_, fun hun => ?_⟩,
    fun hne => ⟨hr i j hi hj hne, fun p c hend hc => ?_⟩⟩
  · cases hc : walkCost (linkCost edges) i p with
    | none => rfl
    | some c =>
      have := (hle p i c hi hc).2
      rw [hend] at this
      exact absurd hinf this
  · by_contra hne
    obtain ⟨p, hend, hc⟩ := hr i j hi hj hne
    rw [hun p hend] at hc
    exact Option.noConfusion hc
  · have := (hle p i c hi hc).1
    rw [hend] at this
    exact this

theorem dvr_computes_shortest_paths_witness :
    (distAt (distanceVectorRouting 3 line3).table.distances 0 2 = INT_MAX
        ↔ Unreachable (linkCost line3) 0 2)
    ∧ (distAt (distanceVectorRouting 3 line3).table.distances 0 2 ≠ INT_MAX →
        IsShortestDist (linkCost line3) 0 2
          (distAt (distanceVectorRouting 3 line3).table.distances 0 2)) :=
  dvr_computes_shortest_paths 3 line3
    (by decide) (by decide) (by decide) 0 2 (by decide) (by decide)

/-- C1 fails as stated: on `brink3` the costs are non-negative, no sum
overflows and the run stops after one round, yet `distances[1][3]` is
`INT_MAX` although node 3 is reachable from node 1: the path `1 - 2 - 3` has
length exactly `INT_MAX`, which the program reads as infinity. -/
theorem path_of_length_INT_MAX_reads_as_infinity :
    ValidEdges 3 brink3
    ∧ (distanceVectorRouting 3 brink3).iterations < MAX_ITERATIONS
    ∧ (∀ s, s < (distanceVectorRouting 3 brink3).iterations →
        NoOverflow 3 (afterRounds (dvrRound 3) (initializeRoutingTable 3 brink3) s))
    ∧ distAt (distanceVectorRouting 3 brink3).table.distances 0 2 = INT_MAX
    ∧ walkEnd 0 [1, 2] = 2
    ∧ walkCost (linkCost brink3) 0 [1, 2] = some 2147483647
    ∧ ¬ Unreachable (linkCost brink3) 0 2 := by
  refine ⟨by decide, by decide, by decide, by decide, by decide, by decide, ?_⟩
  intro hun
  exact absurd (hun [1, 2] rfl) (by decide)

/-! ## The bound on the number of rounds -/

theorem walk_from_inner (N : Nat) (w : Nat → Nat → Option Int) (hw : GraphOn N w) (a : Nat) :
    ∀ q k c, a ∈ k :: q → (k :: q).Nodup → (∀ x ∈ q, x < N) → walkCost w k q = some c →
      ∃ t c3, (a :: t).Nodup ∧ (∀ x ∈ t, x < N) ∧ walkEnd a t = walkEnd k q
        ∧ walkCost w a t = some c3 ∧ c3 ≤ c := by
  intro q
  induction q with
  | nil =>
    intro k c hmem hnd _ hc
    have : a = k := by simpa using hmem
    subst this
    exact ⟨[], c, hnd, by simp, rfl, hc, le_refl c⟩
  | cons y q2 ih =>
    intro k c hmem hnd hlt hc
    by_cases hak : a = k
    · subst hak
      exact ⟨y :: q2, c, hnd, hlt, rfl, hc, le_refl c⟩
    · have hmem2 : a ∈ y :: q2 := by
        rcases List.mem_cons.1 hmem with h | h
        · exact absurd h hak
        · exact h
      obtain ⟨c1, c2, h1, h2, rfl⟩ := (walkCost_cons w k y q2 c).1 hc
      obtain ⟨t, c3, t1, t2, t3, t4, t5⟩ :=
        ih y c2 hmem2 (List.nodup_cons.1 hnd).2
          (fun x hx => hlt x (List.mem_cons_of_mem _ hx)) h2
      have := (hw k y c1 h1).2.2
      exact ⟨t, c3, t1, t2, t3, t4, by omega⟩

/-- A walk can be replaced by one that repeats no node, with the same ends and
no greater length. -/
theorem walk_shorten (N : Nat) (w : Nat → Nat → Option Int) (hw : GraphOn N w) :
    ∀ p a c, a < N → walkCost w a p = some c →
      ∃ q c2, (a :: q).Nodup ∧ (∀ x ∈ q, x < N) ∧ walkEnd a q = walkEnd a p
        ∧ walkCost w a q = some c2 ∧ c2 ≤ c := by
  intro p
  induction p with
  | nil =>
    intro a c _ hc
    exact ⟨[], c, by simp, by simp, rfl, hc, le_refl c⟩
  | cons k rest ih =>
    intro a c _ hc
    obtain ⟨c1, c2, h1, h2, rfl⟩ := (walkCost_cons w a k rest c).1 hc
    obtain ⟨_, hk, hc1⟩ := hw a k c1 h1
    obtain ⟨q, c3, q1, q2, q3, q4, q5⟩ := ih k c2 hk h2
    by_cases hmem : a ∈ k :: q
    · obtain ⟨t, c4, t1, t2, t3, t4, t5⟩ := walk_from_inner N w hw a q k c3 hmem q1 q2 q4
      refine ⟨t, c4, t1, t2, ?_, t4, by omega⟩
      rw [t3, q3]
      rfl
    · refine ⟨k :: q, c1 + c3, List.nodup_cons.2 ⟨hmem, q1⟩, ?_, q3, ?_, by omega⟩
      · intro x hx
        rcases List.mem_cons.1 hx with h | h
        · rw [h]; exact hk
        · exact q2 x h
      · rw [walkCost_cons]
        exact ⟨c1, c3, h1, q4, rfl⟩

theorem nodup_length_le (N : Nat) (l : List Nat) (hnd : l.Nodup) (hlt : ∀ x ∈ l, x < N) :
    l.length ≤ N := by
  have hsub : l ⊆ List.range N := fun x hx => List.mem_range.2 (hlt x hx)
  have := (List.subperm_of_subset hnd hsub).length_le
  simpa using this

theorem neighbour_entry_finite (N : Nat) (w : Nat → Nat → Option Int) (t : RoutingTable)
    (ha : Anchored N w t) (hs : SumsBelowMax N t) (a k : Nat) (ha' : a < N) (hk : k < N)
    (hn : nbrAt t.neighbors a k = true) : distAt t.distances a k < INT_MAX := by
  obtain ⟨_, a2, _, _, _⟩ := id ha
  by_cases hak : a = k
  · subst hak
    rw [a2 a ha']
    decide
  · have hkk : distAt t.distances k k ≠ INT_MAX := by rw [a2 k hk]; decide
    have := hs a ha' k hk k hk ⟨hak, hn, hkk⟩
    rw [a2 k hk] at this
    omega

/-- After `r` rounds every entry is at most the length of every walk of at
most `r + 1` links between its two nodes. -/
theorem dvr_rounds_cover (N : Nat) (edges : List Edge) (hv : ValidEdges N edges) (r : Nat)
    (hs : ∀ s, s ≤ r →
      SumsBelowMax N (afterRounds (dvrRound N) (initializeRoutingTable N edges) s)) :
    ∀ p a c, p.length ≤ r + 1 → a < N → walkCost (linkCost edges) a p = some c →
      distAt (afterRounds (dvrRound N) (initializeRoutingTable N edges) r).distances
          a (walkEnd a p) ≤ c
      ∧ distAt (afterRounds (dvrRound N) (initializeRoutingTable N edges) r).distances
          a (walkEnd a p) ≠ INT_MAX := by
  have hw := graphOn_linkCost N edges hv
  induction r with
  | zero =>
    intro p a c hlen ha hc
    obtain ⟨an, _⟩ := dvr_run_invariants N edges hv 0 hs
    have hs0 := hs 0 (Nat.le_refl 0)
    generalize afterRounds (dvrRound N) (initializeRoutingTable N edges) 0 = t at an hs0 ⊢
    obtain ⟨_, a2, _, a4, a5⟩ := id an
    match p, hlen, hc with
    | [], _, hc =>
      simp only [walkCost, Option.some.injEq] at hc
      subst hc
      show distAt t.distances a a ≤ 0 ∧ distAt t.distances a a ≠ INT_MAX
      rw [a2 a ha]
      exact ⟨le_refl _, by decide⟩
    | [k], _, hc =>
      obtain ⟨c1, c2, h1, h2, rfl⟩ := (walkCost_cons _ a k [] c).1 hc
      simp only [walkCost, Option.some.injEq] at h2
      subst h2
      have hk := (hw a k c1 h1).2.1
      have hn := a5 a k c1 h1
      obtain ⟨c', e1, e2⟩ := a4 a k ha hk hn
      rw [h1] at e1
      simp only [Option.some.injEq] at e1
      subst e1
      have := neighbour_entry_finite N _ t an hs0 a k ha hk hn
      show distAt t.distances a k ≤ c1 + 0 ∧ distAt t.distances a k ≠ INT_MAX
      constructor <;> omega
    | _ :: _ :: _, hlen, _ => simp at hlen
  | succ r ih =>
    intro p a c hlen ha hc
    have ih' := ih (fun s hsr => hs s (Nat.le_succ_of_le hsr))
    obtain ⟨an, _⟩ := dvr_run_invariants N edges hv r (fun s hsr => hs s (Nat.le_succ_of_le hsr))
    have hsr := hs r (Nat.le_succ r)
    show distAt (commit _ (dvrRound N _)).distances a (walkEnd a p) ≤ c
      ∧ distAt (commit _ (dvrRound N _)).distances a (walkEnd a p) ≠ INT_MAX
    generalize afterRounds (dvrRound N) (initializeRoutingTable N edges) r = t at an hsr ih' ⊢
    have an' := anchored_dvrRound N _ t an hsr
    obtain ⟨_, s2, _⟩ := dvrRound_spec N t an.1
    obtain ⟨_, a2, a3, a4, a5⟩ := id an
    cases p with
    | nil =>
      simp only [walkCost, Option.some.injEq] at hc
      subst hc
      show distAt _ a a ≤ 0 ∧ distAt _ a a ≠ INT_MAX
      rw [an'.2.1 a ha]
      exact ⟨le_refl _, by decide⟩
    | cons k rest =>
      have hnn := walkCost_nonneg N _ hw a (k :: rest) c hc
      have hend : walkEnd k rest < N := walkEnd_lt N _ hw a ha (k :: rest) c hc
      obtain ⟨c1, c2, h1, h2, rfl⟩ := (walkCost_cons _ a k rest c).1 hc
      have hk := (hw a k c1 h1).2.1
      have hlen' : rest.length ≤ r + 1 := by simpa using hlen
      obtain ⟨i1, i2⟩ := ih' rest k c2 hlen' hk h2
      show distAt (dvrRound N t).1 a (walkEnd k rest) ≤ c1 + c2
        ∧ distAt (dvrRound N t).1 a (walkEnd k rest) ≠ INT_MAX
      by_cases hab : a = walkEnd k rest
      · rw [← hab]
        have : distAt (dvrRound N t).1 a a = 0 := an'.2.1 a ha
        rw [this]
        exact ⟨hnn, by decide⟩
      · have hn := a5 a k c1 h1
        obtain ⟨m1, m2⟩ := minDistVia_le_sum N _ t an hsr a (walkEnd k rest) k ha hend hk hab hn i2
        obtain ⟨c', e1, e2⟩ := a4 a k ha hk hn
        rw [h1] at e1
        simp only [Option.some.injEq] at e1
        subst e1
        rw [s2 a (walkEnd k rest)]
        split
        · constructor <;> omega
        · rename_i hcnd
          have : ¬ minDistVia N t a (walkEnd k rest) < distAt t.distances a (walkEnd k rest) :=
            fun h => hcnd ⟨ha, hend, hab, h⟩
          constructor <;> omega

theorem dvr_quiet_after_cover (N : Nat) (edges : List Edge) (hv : ValidEdges N edges)
    (hN : 2 ≤ N)
    (hs : ∀ s, s ≤ N - 2 →
      SumsBelowMax N (afterRounds (dvrRound N) (initializeRoutingTable N edges) s)) :
    (dvrRound N (afterRounds (dvrRound N) (initializeRoutingTable N edges) (N - 2))).2
      = false := by
  have hw := graphOn_linkCost N edges hv
  have hcov := dvr_rounds_cover N edges hv (N - 2) hs
  obtain ⟨an, re⟩ := dvr_run_invariants N edges hv (N - 2) hs
  have hsr := hs (N - 2) (Nat.le_refl _)
  generalize afterRounds (dvrRound N) (initializeRoutingTable N edges) (N - 2) = t
    at an re hsr hcov ⊢
  by_contra hne
  have hupd : (dvrRound N t).2 = true := by simpa using hne
  obtain ⟨a, b, ha, hb, hab, hlt⟩ := (dvrRound_spec N t an.1).2.2.1 hupd
  have hmax := (an.2.2.1 a b ha hb).2
  rcases minDistVia_eq_sum N _ t an hsr a b ha hb hab with h | ⟨k, hk, _, hf, he, p1, p2, p3⟩
  · omega
  · have hak : distAt t.distances a k ≠ INT_MAX := by omega
    obtain ⟨q1, e1, c1⟩ := re a k ha hk hak
    obtain ⟨q2, e2, c2⟩ := re k b hk hb hf
    have hcat := walkCost_append _ a q1 q2 _ _ c1 (by rw [e1]; exact c2)
    have hendcat : walkEnd a (q1 ++ q2) = b := by rw [walkEnd_append, e1, e2]
    obtain ⟨q, c3, n1, n2, n3, n4, n5⟩ := walk_shorten N _ hw (q1 ++ q2) a _ ha hcat
    have hlen : (a :: q).length ≤ N :=
      nodup_length_le N (a :: q) n1 (fun x hx => by
        rcases List.mem_cons.1 hx with h | h
        · rw [h]; exact ha
        · exact n2 x h)
    have hq : q.length ≤ N - 2 + 1 := by
      simp only [List.length_cons] at hlen
      omega
    have := (hcov q a c3 hq ha n4).1
    rw [n3, hendcat] at this
    omega

/-- C5, as the program behaves. For `N ≥ 2` and every topology on `N` nodes
(connected or not) with endpoints in `[1, N]`, no self-loops, non-negative
costs and every sum formed during the run below `INT_MAX`, the round count
reported by `distanceVectorRouting` is at most `N - 1`. -/
theorem dvr_round_count_le (N : Nat) (edges : List Edge) (hN : 2 ≤ N)
    (hv : ValidEdges N edges)
    (hsum : ∀ s, s < (distanceVectorRouting N edges).iterations →
      SumsBelowMax N (afterRounds (dvrRound N) (initializeRoutingTable N edges) s)) :
    (distanceVectorRouting N edges).iterations ≤ N - 1 := by
  unfold distanceVectorRouting at hsum ⊢
  obtain ⟨r, _, _, h3, _, h5, _⟩ :=
    convergeLoop_spec (dvrRound N) MAX_ITERATIONS (initializeRoutingTable N edges) 0
      (by decide) (by simp)
  rw [h3] at hsum ⊢
  by_contra hgt
  have hlt : N - 2 + 1 < r := by omega
  have hupd := h5 (N - 2) (by omega)
  have hquiet := dvr_quiet_after_cover N edges hv hN (fun s hs => hsum s (by omega))
  rw [hquiet] at hupd
  exact Bool.noConfusion hupd

theorem dvr_round_count_le_witness :
    (distanceVectorRouting 3 line3).iterations ≤ 3 - 1 :=
  dvr_round_count_le 3 line3 (by decide) (by decide) (by decide)

/-- C5 fails as stated: a single node, which is a connected topology, takes one
round, more than `N - 1 = 0`; and when sums pass `INT_MAX` the three nodes of
`dear3` take four rounds, more than `N - 1 = 2`. -/
theorem round_count_exceeds_bound :
    ValidEdges 1 [] ∧ Connected 1 (linkCost [])
    ∧ (distanceVectorRouting 1 []).iterations = 1
    ∧ ¬ (distanceVectorRouting 1 []).iterations ≤ 1 - 1
    ∧ ValidEdges 3 dear3 ∧ Connected 3 (linkCost dear3)
    ∧ (distanceVectorRouting 3 dear3).iterations = 4 := by
  refine ⟨by decide, ?_, by decide, by decide, by decide, ?_, by decide⟩
  · intro i j hi hj hun
    have hi0 : i = 0 := by omega
    have hj0 : j = 0 := by omega
    subst hi0 hj0
    exact absurd (hun [] rfl) (by decide)
  · intro i j hi hj hun
    interval_cases i <;> interval_cases j
    · exact absurd (hun [] rfl) (by decide)
    · exact absurd (hun [1] rfl) (by decide)
    · exact absurd (hun [1, 2] rfl) (by decide)
    · exact absurd (hun [0] rfl) (by decide)
    · exact absurd (hun [] rfl) (by decide)
    · exact absurd (hun [2] rfl) (by decide)
    · exact absurd (hun [1, 0] rfl) (by decide)
    · exact absurd (hun [1] rfl) (by decide)
    · exact absurd (hun [] rfl) (by decide)

/-! ## Symmetry of the initial and of the converged table -/

theorem joins_comm (e : Edge) (a b : Nat) : e.joins a b = e.joins b a := by
  unfold Edge.joins
  rw [decide_eq_decide]
  constructor <;> (intro h; rcases h with h | h; exact Or.inr h; exact Or.inl h)

theorem linkCost_comm (edges : List Edge) (a b : Nat) :
    linkCost edges a b = linkCost edges b a := by
  unfold linkCost
  have : (fun e : Edge => e.joins a b) = fun e => e.joins b a := by
    funext e
    exact joins_comm e a b
  rw [this]

theorem walk_reverse (w : Nat → Nat → Option Int) (hsym : ∀ a b, w a b = w b a) :
    ∀ p a c, walkCost w a p = some c →
      ∃ q, walkEnd (walkEnd a p) q = a ∧ walkCost w (walkEnd a p) q = some c := by
  intro p
  induction p with
  | nil =>
    intro a c hc
    exact ⟨[], rfl, hc⟩
  | cons k rest ih =>
    intro a c hc
    obtain ⟨c1, c2, h1, h2, rfl⟩ := (walkCost_cons w a k rest c).1 hc
    obtain ⟨q, q1, q2⟩ := ih k c2 h2
    refine ⟨q ++ [a], ?_, ?_⟩
    · show walkEnd (walkEnd k rest) (q ++ [a]) = a
      rw [walkEnd_append]
      rfl
    · show walkCost w (walkEnd k rest) (q ++ [a]) = some (c1 + c2)
      have hlast : walkCost w (walkEnd (walkEnd k rest) q) [a] = some c1 := by
        rw [q1, walkCost_cons]
        exact ⟨c1, 0, by rw [hsym k a]; exact h1, rfl, by simp⟩
      have := walkCost_append w (walkEnd k rest) q [a] c2 c1 q2 hlast
      rw [this, add_comm]

/-- C6, as the program behaves. For every topology with labels in `[1, N]`
the table built by `initializeRoutingTable` is symmetric: `distances[i][j] ==
distances[j][i]` and `neighbors[i][j] == neighbors[j][i]` for all `i`, `j`.
The matrices committed by the rounds need not be symmetric; but when the
topology has no self-loops and non-negative costs, every sum formed during the
run stays below `INT_MAX` and the run stops before the cap, the final matrix
is symmetric again. -/
theorem symmetric_at_start_and_at_convergence (N : Nat) (edges : List Edge)
    (hl : ∀ e ∈ edges, 1 ≤ e.src ∧ e.src ≤ N ∧ 1 ≤ e.dest ∧ e.dest ≤ N) :
    (∀ i j, i < N → j < N →
      distAt (initializeRoutingTable N edges).distances i j
        = distAt (initializeRoutingTable N edges).distances j i
      ∧ nbrAt (initializeRoutingTable N edges).neighbors i j
        = nbrAt (initializeRoutingTable N edges).neighbors j i)
    ∧ (ValidEdges N edges →
        (∀ s, s < (distanceVectorRouting N edges).iterations →
          SumsBelowMax N (afterRounds (dvrRound N) (initializeRoutingTable N edges) s)) →
        (distanceVectorRouting N edges).iterations < MAX_ITERATIONS →
        ∀ i j, i < N → j < N →
          distAt (distanceVectorRouting N edges).table.distances i j
            = distAt (distanceVectorRouting N edges).table.distances j i) := by
  constructor
  · intro i j hi hj
    obtain ⟨_, _, i3⟩ := initialize_spec N edges hl
    rw [(i3 i j hi hj).1, (i3 i j hi hj).2, (i3 j i hj hi).1, (i3 j i hj hi).2,
      linkCost_comm edges i j]
    by_cases h : i = j
    · subst h; exact ⟨rfl, rfl⟩
    · have h' : ¬ j = i := fun e => h e.symm
      simp only [h, h', if_false, and_self]
  · intro hv hsum hstop
    have hw := graphOn_linkCost N edges hv
    obtain ⟨ha, hr, hs, hfix⟩ := dvr_stable_table N edges hv hsum hstop
    have hle := stable_le_walk N (linkCost edges) _ hw ha hs hfix
    have half : ∀ i j, i < N → j < N →
        distAt (distanceVectorRouting N edges).table.distances i j ≠ INT_MAX →
        distAt (distanceVectorRouting N edges).table.distances j i
            ≤ distAt (distanceVectorRouting N edges).table.distances i j
          ∧ distAt (distanceVectorRouting N edges).table.distances j i ≠ INT_MAX := by
      intro i j hi hj hne
      obtain ⟨p, hend, hc⟩ := hr i j hi hj hne
      obtain ⟨q, q1, q2⟩ := walk_reverse (linkCost edges) (linkCost_comm edges) p i _ hc
      rw [hend] at q1 q2
      have := hle q j _ hj q2
      rw [q1] at this
      exact this
    intro i j hi hj
    by_cases hne : distAt (distanceVectorRouting N edges).table.distances i j = INT_MAX
    · by_cases hne2 : distAt (distanceVectorRouting N edges).table.distances j i = INT_MAX
      · rw [hne, hne2]
      · exact absurd hne (half j i hj hi hne2).2
    · obtain ⟨h1, h2⟩ := half i j hi hj hne
      obtain ⟨h3, _⟩ := half j i hj hi h2
      omega

theorem symmetric_at_start_and_at_convergence_witness :
    (∀ i j, i < 3 → j < 3 →
      distAt (initializeRoutingTable 3 line3).distances i j
        = distAt (initializeRoutingTable 3 line3).distances j i
      ∧ nbrAt (initializeRoutingTable 3 line3).neighbors i j
        = nbrAt (initializeRoutingTable 3 line3).neighbors j i)
    ∧ (∀ i j, i < 3 → j < 3 →
          distAt (distanceVectorRouting 3 line3).table.distances i j
            = distAt (distanceVectorRouting 3 line3).table.distances j i) :=
  ⟨(symmetric_at_start_and_at_convergence 3 line3 (by decide)).1,
   (symmetric_at_start_and_at_convergence 3 line3 (by decide)).2
      (by decide) (by decide) (by decide)⟩

/-! ## Re-convergence after a link failure -/

theorem injectFailure_cells (N : Nat) (table : RoutingTable)
    (hd : Square N table.distances) (hn : Square N table.neighbors)
    (failSrc failDest : Nat) (h1 : failSrc - 1 < N) (h2 : failDest - 1 < N) :
    Square N (injectFailure table failSrc failDest).distances
    ∧ (∀ a b, distAt (injectFailure table failSrc failDest).distances a b =
        if (a = failSrc - 1 ∧ b = failDest - 1) ∨ (a = failDest - 1 ∧ b = failSrc - 1)
        then INT_MAX else distAt table.distances a b)
    ∧ (∀ a b, nbrAt (injectFailure table failSrc failDest).neighbors a b =
        if (a = failSrc - 1 ∧ b = failDest - 1) ∨ (a = failDest - 1 ∧ b = failSrc - 1)
        then false else nbrAt table.neighbors a b) := by
  refine ⟨square_setCell (square_setCell hd _ _ _) _ _ _, fun a b => ?_, fun a b => ?_⟩
  · unfold injectFailure distAt
    simp only
    rw [cell_setCell_sq 0 (square_setCell hd _ _ _) h2 h1, cell_setCell_sq 0 hd h1 h2]
    by_cases c1 : a = failDest - 1 ∧ b = failSrc - 1
    · rw [if_pos c1, if_pos (Or.inr c1)]
    · by_cases c2 : a = failSrc - 1 ∧ b = failDest - 1
      · rw [if_neg c1, if_pos c2, if_pos (Or.inl c2)]
      · rw [if_neg c1, if_neg c2, if_neg (fun h => h.elim c2 c1)]
  · unfold injectFailure nbrAt
    simp only
    rw [cell_setCell_sq false (square_setCell hn _ _ _) h2 h1, cell_setCell_sq false hn h1 h2]
    by_cases c1 : a = failDest - 1 ∧ b = failSrc - 1
    · rw [if_pos c1, if_pos (Or.inr c1)]
    · by_cases c2 : a = failSrc - 1 ∧ b = failDest - 1
      · rw [if_neg c1, if_pos c2, if_pos (Or.inl c2)]
      · rw [if_neg c1, if_neg c2, if_neg (fun h => h.elim c2 c1)]

theorem graphOn_linkCostWithout (N : Nat) (edges : List Edge) (hv : ValidEdges N edges)
    (failSrc failDest : Nat) : GraphOn N (linkCostWithout edges failSrc failDest) := by
  intro a b c h
  unfold linkCostWithout at h
  split at h
  · exact Option.noConfusion h
  · exact graphOn_linkCost N edges hv a b c h

theorem anchored_injectFailure (N : Nat) (edges : List Edge) (t : RoutingTable)
    (ha : Anchored N (linkCost edges) t) (hn : Square N t.neighbors)
    (failSrc failDest : Nat) (h1 : failSrc - 1 < N) (h2 : failDest - 1 < N)
    (hne : failSrc - 1 ≠ failDest - 1) :
    Anchored N (linkCostWithout edges failSrc failDest) (injectFailure t failSrc failDest) := by
  obtain ⟨a1, a2, a3, a4, a5⟩ := id ha
  obtain ⟨s1, s2, s3⟩ := injectFailure_cells N t a1 hn failSrc failDest h1 h2
  refine ⟨s1, fun a ha' => ?_, fun a b ha' hb' => ?_, fun a b ha' hb' hnb => ?_,
    fun a b c hc => ?_⟩
  · rw [s2 a a]
    have : ¬ ((a = failSrc - 1 ∧ a = failDest - 1) ∨ (a = failDest - 1 ∧ a = failSrc - 1)) := by
      omega
    rw [if_neg this]
    exact a2 a ha'
  · rw [s2 a b]
    split
    · exact ⟨by decide, le_refl _⟩
    · exact a3 a b ha' hb'
  · rw [s3 a b] at hnb
    split at hnb
    · exact Bool.noConfusion hnb
    · rename_i hcase
      obtain ⟨c, hc1, hc2⟩ := a4 a b ha' hb' hnb
      refine ⟨c, ?_, ?_⟩
      · unfold linkCostWithout
        rw [if_neg hcase]
        exact hc1
      · rw [s2 a b, if_neg hcase]
        exact hc2
  · unfold linkCostWithout at hc
    split at hc
    · exact Option.noConfusion hc
    · rename_i hcase
      rw [s3 a b, if_neg hcase]
      exact a5 a b c hc

theorem dvr_run_anchored (N : Nat) (edges : List Edge) (hv : ValidEdges N edges) (r : Nat)
    (hs0 : SumsBelowMax N (initializeRoutingTable N edges))
    (hs : ∀ s, s < r →
      SumsBelowMax N (afterRounds (dvrRound N) (initializeRoutingTable N edges) s)) :
    Anchored N (linkCost edges) (afterRounds (dvrRound N) (initializeRoutingTable N edges) r)
    ∧ (afterRounds (dvrRound N) (initializeRoutingTable N edges) r).neighbors
        = (initializeRoutingTable N edges).neighbors := by
  induction r with
  | zero => exact ⟨initialize_anchored N edges hv hs0, rfl⟩
  | succ r ih =>
    obtain ⟨i1, i2⟩ := ih (fun s hsr => hs s (Nat.lt_succ_of_lt hsr))
    exact ⟨anchored_dvrRound N _ _ i1 (hs r (Nat.lt_succ_self r)), i2⟩

theorem fail_run_anchored (N : Nat) (w : Nat → Nat → Option Int) (t : RoutingTable)
    (ha : Anchored N w t) (r : Nat)
    (hs : ∀ s, s < r → SumsBelowMax N (afterRounds (failRound N) t s)) :
    Anchored N w (afterRounds (failRound N) t r) := by
  induction r with
  | zero => exact ha
  | succ r ih =>
    exact anchored_failRound N w _ (ih (fun s hsr => hs s (Nat.lt_succ_of_lt hsr)))
      (hs r (Nat.lt_succ_self r))

/-- C2, as the program behaves. For a topology with endpoints in `[1, N]`, no
self-loops and non-negative costs, run through `distanceVectorRouting` and
then through `handleLinkFailure` on an existing edge `(failSrc, failDest)`,
with every sum formed in either run below `INT_MAX`: if the post-failure loop
stops before the cap of 100 rounds, then the final table is a fixed point of
the neighbour relaxation (`distances[i][j]` is the neighbour minimum for
`i ≠ j`), and every final `distances[i][j]` is at most the length of every
path from `i` to `j` in the graph with the failed edge removed, hence not
`INT_MAX` when `j` is still reachable. -/
theorem reconverged_at_most_shortest_path (N : Nat) (edges : List Edge)
    (hv : ValidEdges N edges)
    (hsum1 : ∀ s, s < (distanceVectorRouting N edges).iterations →
      SumsBelowMax N (afterRounds (dvrRound N) (initializeRoutingTable N edges) s))
    (failSrc failDest : Nat)
    (hedge : 1 ≤ failSrc ∧ 1 ≤ failDest ∧ linkCost edges (failSrc - 1) (failDest - 1) ≠ none)
    (hsum2 : ∀ s,
      s < (handleLinkFailure N (distanceVectorRouting N edges).table failSrc failDest).iterations →
      SumsBelowMax N (afterRounds (failRound N)
        (injectFailure (distanceVectorRouting N edges).table failSrc failDest) s))
    (hstop : (handleLinkFailure N (distanceVectorRouting N edges).table failSrc failDest).iterations
      < MAX_ITERATIONS)
    (i j : Nat) (hi : i < N) (hj : j < N) :
    (i ≠ j →
      distAt (handleLinkFailure N (distanceVectorRouting N edges).table failSrc
          failDest).table.distances i j
        = minDistVia N (handleLinkFailure N (distanceVectorRouting N edges).table failSrc
          failDest).table i j)
    ∧ ∀ p c, walkEnd i p = j →
        walkCost (linkCostWithout edges failSrc failDest) i p = some c →
        distAt (handleLinkFailure N (distanceVectorRouting N edges).table failSrc
            failDest).table.distances i j ≤ c
        ∧ distAt (handleLinkFailure N (distanceVectorRouting N edges).table failSrc
            failDest).table.distances i j ≠ INT_MAX := by
  -- the table of the first run
  have hfirst : Anchored N (linkCost edges) (distanceVectorRouting N edges).table
      ∧ Square N (distanceVectorRouting N edges).table.neighbors := by
    unfold distanceVectorRouting at hsum1 ⊢
    obtain ⟨r, r1, _, r3, r4, _, _⟩ :=
      convergeLoop_spec (dvrRound N) MAX_ITERATIONS (initializeRoutingTable N edges) 0
        (by decide) (by simp)
    rw [r3] at hsum1
    rw [r4]
    obtain ⟨x1, x2⟩ := dvr_run_anchored N edges hv r (hsum1 0 (by omega))
      (fun s hs => hsum1 s (by omega))
    refine ⟨x1, ?_⟩
    rw [x2]
    exact (initialize_spec N edges (validEdges_labels N edges hv)).2.1
  generalize (distanceVectorRouting N edges).table = t1 at hfirst hsum2 hstop ⊢
  obtain ⟨f1, f2⟩ := hfirst
  -- the failed link
  obtain ⟨_, _, he⟩ := hedge
  obtain ⟨c0, hc0⟩ := Option.ne_none_iff_exists'.1 he
  obtain ⟨e1, e2, e3, _⟩ := linkCost_some N edges hv _ _ c0 hc0
  have hinj := anchored_injectFailure N edges t1 f1 f2 failSrc failDest e1 e2 e3
  -- the post-failure run
  have hloop : (handleLinkFailure N t1 failSrc failDest).iterations
        = (convergeLoop (roundOf true N) MAX_ITERATIONS
            (injectFailure t1 failSrc failDest) 0).iterations
      ∧ (handleLinkFailure N t1 failSrc failDest).table
        = (convergeLoop (roundOf true N) MAX_ITERATIONS
            (injectFailure t1 failSrc failDest) 0).table := by
    rw [roundOf_true]
    exact ⟨rfl, rfl⟩
  rw [hloop.1] at hsum2 hstop
  rw [hloop.2]
  obtain ⟨r, h1, h2, h3⟩ := convergeLoop_stable true N _ hstop
  rw [h1] at hsum2
  rw [h2]
  rw [roundOf_true] at h3 ⊢
  have han := fail_run_anchored N _ _ hinj r (fun s hs => hsum2 s (by omega))
  have hsr := hsum2 r (by omega)
  generalize afterRounds (failRound N) (injectFailure t1 failSrc failDest) r = t
    at han hsr h3 ⊢
  have heq : ∀ a b, a < N → b < N → a ≠ b →
      minDistVia N t a b = distAt t.distances a b := by
    intro a b ha hb hab
    by_contra hne
    have := (failRound_spec N t han.1).2.2.2 ⟨a, b, ha, hb, hab, hne⟩
    rw [h3] at this
    exact Bool.noConfusion this
  have hw := graphOn_linkCostWithout N edges hv failSrc failDest
  have hle := stable_le_walk N _ t hw han hsr
    (fun a b ha hb hab hlt => by rw [heq a b ha hb hab] at hlt; exact lt_irrefl _ hlt)
  refine ⟨fun hij => (heq i j hi hj hij).symm, fun p c hend hc => ?_⟩
  have := hle p i c hi hc
  rw [hend] at this
  exact this

theorem reconverged_at_most_shortest_path_witness :
    (0 ≠ 2 →
      distAt (handleLinkFailure 3 (distanceVectorRouting 3 triangle).table 1
          2).table.distances 0 2
        = minDistVia 3 (handleLinkFailure 3 (distanceVectorRouting 3 triangle).table 1
          2).table 0 2)
    ∧ ∀ p c, walkEnd 0 p = 2 →
        walkCost (linkCostWithout triangle 1 2) 0 p = some c →
        distAt (handleLinkFailure 3 (distanceVectorRouting 3 triangle).table 1
            2).table.distances 0 2 ≤ c
        ∧ distAt (handleLinkFailure 3 (distanceVectorRouting 3 triangle).table 1
            2).table.distances 0 2 ≠ INT_MAX :=
  reconverged_at_most_shortest_path 3 triangle (by decide) (by decide) 1 2
    ⟨by decide, by decide, by decide⟩ (by decide) (by decide) 0 2 (by decide) (by decide)

/-- C2 fails as stated: in the triangle `1 - 2 - 3` with costs 1, 1 and 10 for
the link `1 - 3`, both runs stop before the cap; after the failure of the
existing edge `(1, 2)` the shortest path from node 1 to node 3 has length 10,
but the final `distances[1][3]` is still 2, the length of the route through the
failed link. -/
theorem stale_distance_survives :
    ValidEdges 3 triangle
    ∧ linkCost triangle 0 1 ≠ none
    ∧ (distanceVectorRouting 3 triangle).iterations < MAX_ITERATIONS
    ∧ (handleLinkFailure 3 (distanceVectorRouting 3 triangle).table 1 2).iterations
        < MAX_ITERATIONS
    ∧ distAt (handleLinkFailure 3 (distanceVectorRouting 3 triangle).table 1 2).table.distances
        0 2 = 2
    ∧ IsShortestDist (linkCostWithout triangle 1 2) 0 2 10 := by
  refine ⟨by decide, by decide, by decide, by decide, by decide, ⟨[2], rfl, by decide⟩, ?_⟩
  intro p c hend hc
  have hw := graphOn_linkCostWithout 3 triangle (by decide) 1 2
  cases p with
  | nil => exact absurd hend (by decide)
  | cons k rest =>
    obtain ⟨c1, c2, h1, h2, rfl⟩ := (walkCost_cons _ 0 k rest c).1 hc
    have hk := (hw 0 k c1 h1).2.1
    have h2' := walkCost_nonneg 3 _ hw k rest c2 h2
    interval_cases k
    · have h00 : linkCostWithout triangle 1 2 0 0 = none := by decide
      rw [h00] at h1
      exact Option.noConfusion h1
    · have h01 : linkCostWithout triangle 1 2 0 1 = none := by decide
      rw [h01] at h1
      exact Option.noConfusion h1
    · have : c1 = 10 := by
        have h10 : linkCostWithout triangle 1 2 0 2 = some 10 := by decide
        rw [h10] at h1
        exact (Option.some.inj h1).symm
      omega

/-! ## Termination and the cap on rounds -/

/-- Rounds allowed beyond the cap are never used. -/
theorem convergeLoop_extra_fuel (round : RoutingTable → List (List Int) × Bool) (extra : Nat) :
    ∀ (fuel : Nat) (table : RoutingTable) (iterations : Nat),
      0 < fuel → MAX_ITERATIONS ≤ iterations + fuel →
      convergeLoop round (fuel + extra) table iterations
        = convergeLoop round fuel table iterations := by
  intro fuel
  induction fuel with
  | zero => intro _ _ h; exact absurd h (Nat.lt_irrefl 0)
  | succ fuel ih =>
    intro table iterations _ hsum
    have hshape : fuel + 1 + extra = (fuel + extra) + 1 := by omega
    rw [hshape]
    by_cases hcap : iterations + 1 ≥ MAX_ITERATIONS
    · simp only [convergeLoop, hcap, if_true]
    · by_cases hupd : (round table).2 = true
      · simp only [convergeLoop, hcap, if_false, hupd, if_true]
        exact ih _ _ (by omega) (by omega)
      · simp only [convergeLoop, hcap, if_false, hupd, Bool.false_eq_true]

/-- C11. Termination and round cap, for both convergence loops (the `<` loop
of `distanceVectorRouting` and the `!=` loop of `handleLinkFailure`) and every
input table: the loop returns after `r` rounds with `1 ≤ r ≤ 100`, whatever
number of rounds beyond 100 it would be allowed; the table returned is the one
committed by round `r`; every round before round `r` produced a change; if
`r < 100` then round `r` produced no change; and at `r = 100` the loop has
stopped after round 100 without regard to its flag. -/
theorem loops_stop_within_cap (postFailure : Bool) (N : Nat) (table : RoutingTable) :
    1 ≤ (convergeLoop (roundOf postFailure N) MAX_ITERATIONS table 0).iterations
    ∧ (convergeLoop (roundOf postFailure N) MAX_ITERATIONS table 0).iterations ≤ 100
    ∧ (∀ extra, convergeLoop (roundOf postFailure N) (MAX_ITERATIONS + extra) table 0
        = convergeLoop (roundOf postFailure N) MAX_ITERATIONS table 0)
    ∧ (convergeLoop (roundOf postFailure N) MAX_ITERATIONS table 0).table
        = afterRounds (roundOf postFailure N) table
            (convergeLoop (roundOf postFailure N) MAX_ITERATIONS table 0).iterations
    ∧ (∀ s, s + 1 < (convergeLoop (roundOf postFailure N) MAX_ITERATIONS table 0).iterations →
        (roundOf postFailure N (afterRounds (roundOf postFailure N) table s)).2 = true)
    ∧ ((convergeLoop (roundOf postFailure N) MAX_ITERATIONS table 0).iterations < 100 →
        (roundOf postFailure N (afterRounds (roundOf postFailure N) table
          ((convergeLoop (roundOf postFailure N) MAX_ITERATIONS table 0).iterations - 1))).2
          = false)
    ∧ (∀ edges, distanceVectorRouting N edges
        = convergeLoop (roundOf false N) MAX_ITERATIONS (initializeRoutingTable N edges) 0)
    ∧ (∀ failSrc failDest,
        (handleLinkFailure N table failSrc failDest).iterations
          = (convergeLoop (roundOf true N) MAX_ITERATIONS
              (injectFailure table failSrc failDest) 0).iterations
        ∧ (handleLinkFailure N table failSrc failDest).table
          = (convergeLoop (roundOf true N) MAX_ITERATIONS
              (injectFailure table failSrc failDest) 0).table) := by
  obtain ⟨r, h1, h2, h3, h4, h5, h6⟩ :=
    convergeLoop_spec (roundOf postFailure N) MAX_ITERATIONS table 0 (by decide) (by simp)
  have hr : (convergeLoop (roundOf postFailure N) MAX_ITERATIONS table 0).iterations = r := by
    rw [h3]; omega
  rw [hr]
  have hmax : MAX_ITERATIONS = 100 := rfl
  refine ⟨h1, by omega, fun extra => ?_, h4, h5, fun hlt => ?_, fun edges => ?_,
    fun failSrc failDest => ?_⟩
  · exact convergeLoop_extra_fuel _ extra MAX_ITERATIONS table 0 (by decide) (by simp)
  · rcases h6 with h | h
    · exact h
    · omega
  · rw [roundOf_false]; rfl
  · rw [roundOf_true]; exact ⟨rfl, rfl⟩

/-! ## What one round computes -/

theorem addInt_le_max (a b : Int) : addInt a b ≤ INT_MAX := by
  unfold addInt INT_MAX
  omega

theorem addInt_ge_min (a b : Int) : -2147483648 ≤ addInt a b := by
  unfold addInt
  omega

theorem minDistVia_isNeighbourMin (N : Nat) (t : RoutingTable) (i j : Nat) :
    IsNeighbourMin N t i j (minDistVia N t i j) := by
  obtain ⟨_, h2, h3⟩ := minDistVia_spec N t i j
  refine ⟨h2, ?_⟩
  rcases h3 with h | ⟨k, hk, hn, hf, he⟩
  · by_cases hex : ∃ k, k < N ∧ nbrAt t.neighbors i k = true ∧ distAt t.distances k j ≠ INT_MAX
    · obtain ⟨k, hk, hn, hf⟩ := hex
      have h1 := h2 k hk hn hf
      have h4 := addInt_le_max (distAt t.distances i k) (distAt t.distances k j)
      exact Or.inl ⟨k, hk, hn, hf, by omega⟩
    · refine Or.inr ⟨fun k hk hn => ?_, h⟩
      by_contra hf
      exact hex ⟨k, hk, hn, hf⟩
  · exact Or.inl ⟨k, hk, hn, hf, he⟩

/-- The neighbour minimum is determined by the table. -/
theorem isNeighbourMin_unique (N : Nat) (t : RoutingTable) (i j : Nat) (m m2 : Int)
    (h : IsNeighbourMin N t i j m) (h2 : IsNeighbourMin N t i j m2) : m = m2 := by
  obtain ⟨a1, a2⟩ := h
  obtain ⟨b1, b2⟩ := h2
  rcases a2 with ⟨k, hk, hn, hf, he⟩ | ⟨hnone, he⟩
  · rcases b2 with ⟨k2, hk2, hn2, hf2, he2⟩ | ⟨hnone2, _⟩
    · have := a1 k2 hk2 hn2 hf2
      have := b1 k hk hn hf
      omega
    · exact absurd (hnone2 k hk hn) hf
  · rcases b2 with ⟨k2, hk2, hn2, hf2, _⟩ | ⟨_, he2⟩
    · exact absurd (hnone k2 hk2 hn2) hf2
    · rw [he, he2]

/-- C14. The failure-free round is a synchronous min-relaxation: on every
table `old` of `N` rows and columns and for every `i ≠ j`, one round of
`distanceVectorRouting` commits `new[i][j] = min(old[i][j], minDist(i, j))`,
where `minDist(i, j)` is the neighbour minimum computed on `old` alone (the
least `old[i][k] + old[k][j]` over `k` with `neighbors[i][k]` true and
`old[k][j]` not `INT_MAX`, `INT_MAX` if there is none); the diagonal and the
mask `neighbors` are unchanged. -/
theorem dvrRound_min_relaxation (N : Nat) (old : RoutingTable)
    (hsq : Square N old.distances) :
    (∀ i j, i < N → j < N → i ≠ j →
      IsNeighbourMin N old i j (minDistVia N old i j)
      ∧ distAt (commit old (dvrRound N old)).distances i j
          = min (distAt old.distances i j) (minDistVia N old i j))
    ∧ (∀ i, distAt (commit old (dvrRound N old)).distances i i = distAt old.distances i i)
    ∧ (commit old (dvrRound N old)).neighbors = old.neighbors := by
  obtain ⟨_, s2, _⟩ := dvrRound_spec N old hsq
  refine ⟨fun i j hi hj hij => ⟨minDistVia_isNeighbourMin N old i j, ?_⟩, fun i => ?_, rfl⟩
  · show distAt (dvrRound N old).1 i j = _
    rw [s2 i j]
    by_cases hlt : minDistVia N old i j < distAt old.distances i j
    · rw [if_pos ⟨hi, hj, hij, hlt⟩, min_eq_right (le_of_lt hlt)]
    · rw [if_neg (fun h => hlt h.2.2.2), min_eq_left (not_lt.1 hlt)]
  · show distAt (dvrRound N old).1 i i = _
    rw [s2 i i]
    simp

theorem dvrRound_min_relaxation_witness :
    (∀ i j, i < 3 → j < 3 → i ≠ j →
      IsNeighbourMin 3 (initializeRoutingTable 3 line3) i j
        (minDistVia 3 (initializeRoutingTable 3 line3) i j)
      ∧ distAt (commit (initializeRoutingTable 3 line3)
            (dvrRound 3 (initializeRoutingTable 3 line3))).distances i j
          = min (distAt (initializeRoutingTable 3 line3).distances i j)
              (minDistVia 3 (initializeRoutingTable 3 line3) i j))
    ∧ (∀ i, distAt (commit (initializeRoutingTable 3 line3)
          (dvrRound 3 (initializeRoutingTable 3 line3))).distances i i
        = distAt (initializeRoutingTable 3 line3).distances i i)
    ∧ (commit (initializeRoutingTable 3 line3)
        (dvrRound 3 (initializeRoutingTable 3 line3))).neighbors
        = (initializeRoutingTable 3 line3).neighbors :=
  dvrRound_min_relaxation 3 (initializeRoutingTable 3 line3) ⟨by decide, by decide⟩

/-- C15. The post-failure round overwrites with the neighbour minimum: on
every table `old` of `N` rows and columns and for every `i ≠ j`, one round of
the loop of `handleLinkFailure` commits `new[i][j] = minDist(i, j)`, the
neighbour minimum computed on `old`, be it smaller or larger than
`old[i][j]`; so an entry becomes `INT_MAX` when no neighbour of `i` has a
distance to `j` other than `INT_MAX`. The diagonal and the mask are
unchanged. -/
theorem failRound_overwrites (N : Nat) (old : RoutingTable)
    (hsq : Square N old.distances) :
    (∀ i j, i < N → j < N → i ≠ j →
      IsNeighbourMin N old i j (minDistVia N old i j)
      ∧ distAt (commit old (failRound N old)).distances i j = minDistVia N old i j
      ∧ ((∀ k, k < N → nbrAt old.neighbors i k = true → distAt old.distances k j = INT_MAX) →
          distAt (commit old (failRound N old)).distances i j = INT_MAX))
    ∧ (∀ i, distAt (commit old (failRound N old)).distances i i = distAt old.distances i i)
    ∧ (commit old (failRound N old)).neighbors = old.neighbors := by
  obtain ⟨_, s2, _⟩ := failRound_spec N old hsq
  have hval : ∀ i j, i < N → j < N → i ≠ j →
      distAt (commit old (failRound N old)).distances i j = minDistVia N old i j := by
    intro i j hi hj hij
    show distAt (failRound N old).1 i j = _
    rw [s2 i j]
    by_cases hne : minDistVia N old i j ≠ distAt old.distances i j
    · rw [if_pos ⟨hi, hj, hij, hne⟩]
    · rw [if_neg (fun h => hne h.2.2.2)]
      exact (not_not.1 hne).symm
  refine ⟨fun i j hi hj hij =>
    ⟨minDistVia_isNeighbourMin N old i j, hval i j hi hj hij, fun hnone => ?_⟩,
    fun i => ?_, rfl⟩
  · rw [hval i j hi hj hij]
    rcases (minDistVia_spec N old i j).2.2 with h | ⟨k, hk, hn, hf, _⟩
    · exact h
    · exact absurd (hnone k hk hn) hf
  · show distAt (failRound N old).1 i i = _
    rw [s2 i i]
    simp

theorem failRound_overwrites_witness :
    (∀ i j, i < 3 → j < 3 → i ≠ j →
      IsNeighbourMin 3 (injectFailure lineTable 1 2) i j
        (minDistVia 3 (injectFailure lineTable 1 2) i j)
      ∧ distAt (commit (injectFailure lineTable 1 2)
            (failRound 3 (injectFailure lineTable 1 2))).distances i j
          = minDistVia 3 (injectFailure lineTable 1 2) i j
      ∧ ((∀ k, k < 3 → nbrAt (injectFailure lineTable 1 2).neighbors i k = true →
            distAt (injectFailure lineTable 1 2).distances k j = INT_MAX) →
          distAt (commit (injectFailure lineTable 1 2)
            (failRound 3 (injectFailure lineTable 1 2))).distances i j = INT_MAX))
    ∧ (∀ i, distAt (commit (injectFailure lineTable 1 2)
          (failRound 3 (injectFailure lineTable 1 2))).distances i i
        = distAt (injectFailure lineTable 1 2).distances i i)
    ∧ (commit (injectFailure lineTable 1 2)
        (failRound 3 (injectFailure lineTable 1 2))).neighbors
        = (injectFailure lineTable 1 2).neighbors :=
  failRound_overwrites 3 (injectFailure lineTable 1 2) ⟨by decide, by decide⟩

/-! ## The flag `updated` -/

theorem roundOf_spec (postFailure : Bool) (N : Nat) (t : RoutingTable)
    (hsq : Square N t.distances) :
    (roundOf postFailure N t).2 = true →
      ∃ a b, a < N ∧ b < N
        ∧ distAt (roundOf postFailure N t).1 a b ≠ distAt t.distances a b := by
  intro hupd
  cases postFailure
  · rw [roundOf_false] at hupd ⊢
    obtain ⟨_, s2, s3⟩ := dvrRound_spec N t hsq
    obtain ⟨a, b, ha, hb, hab, hlt⟩ := s3.1 hupd
    refine ⟨a, b, ha, hb, ?_⟩
    rw [s2 a b, if_pos ⟨ha, hb, hab, hlt⟩]
    exact ne_of_lt hlt
  · rw [roundOf_true] at hupd ⊢
    obtain ⟨_, s2, s3⟩ := failRound_spec N t hsq
    obtain ⟨a, b, ha, hb, hab, hne⟩ := s3.1 hupd
    refine ⟨a, b, ha, hb, ?_⟩
    rw [s2 a b, if_pos ⟨ha, hb, hab, hne⟩]
    exact hne

/-- C19. The flag `updated` is exact, for both round variants and every table
of `N` rows and columns: it is true at the end of a round if and only if the
matrix the round commits differs from the matrix before the round, that is, in
at least one entry. -/
theorem updated_flag_exact (postFailure : Bool) (N : Nat) (table : RoutingTable)
    (hsq : Square N table.distances) :
    ((roundOf postFailure N table).2 = true ↔
      (commit table (roundOf postFailure N table)).distances ≠ table.distances)
    ∧ ((roundOf postFailure N table).2 = true ↔
      ∃ a b, a < N ∧ b < N
        ∧ distAt (commit table (roundOf postFailure N table)).distances a b
            ≠ distAt table.distances a b) := by
  have h1 : (roundOf postFailure N table).2 = true →
      ∃ a b, a < N ∧ b < N
        ∧ distAt (roundOf postFailure N table).1 a b ≠ distAt table.distances a b :=
    roundOf_spec postFailure N table hsq
  have h2 : (∃ a b, a < N ∧ b < N
        ∧ distAt (roundOf postFailure N table).1 a b ≠ distAt table.distances a b) →
      (roundOf postFailure N table).1 ≠ table.distances := by
    rintro ⟨a, b, _, _, hne⟩ heq
    rw [heq] at hne
    exact hne rfl
  have h3 : (roundOf postFailure N table).1 ≠ table.distances →
      (roundOf postFailure N table).2 = true := by
    intro hne
    by_contra hf
    exact hne (roundOf_unchanged postFailure N table (by simpa using hf))
  exact ⟨⟨fun h => h2 (h1 h), h3⟩, ⟨h1, fun h => h3 (h2 h)⟩⟩

theorem updated_flag_exact_witness :
    (((roundOf false 3 (initializeRoutingTable 3 line3)).2 = true ↔
      (commit (initializeRoutingTable 3 line3)
        (roundOf false 3 (initializeRoutingTable 3 line3))).distances
        ≠ (initializeRoutingTable 3 line3).distances)
    ∧ ((roundOf false 3 (initializeRoutingTable 3 line3)).2 = true ↔
      ∃ a b, a < 3 ∧ b < 3
        ∧ distAt (commit (initializeRoutingTable 3 line3)
            (roundOf false 3 (initializeRoutingTable 3 line3))).distances a b
            ≠ distAt (initializeRoutingTable 3 line3).distances a b))
    ∧ (((roundOf true 3 lineTable).2 = true ↔
      (commit lineTable (roundOf true 3 lineTable)).distances ≠ lineTable.distances)
    ∧ ((roundOf true 3 lineTable).2 = true ↔
      ∃ a b, a < 3 ∧ b < 3
        ∧ distAt (commit lineTable (roundOf true 3 lineTable)).distances a b
            ≠ distAt lineTable.distances a b)) :=
  ⟨updated_flag_exact false 3 (initializeRoutingTable 3 line3) ⟨by decide, by decide⟩,
   updated_flag_exact true 3 lineTable ⟨by decide, by decide⟩⟩

/-! ## The diagonal -/

theorem setCell_diag (m : List (List Int)) (i j : Nat) (hij : i ≠ j) (v : Int) (a : Nat) :
    distAt (setCell m i j v) a a = distAt m a a := by
  unfold distAt
  rw [cell_setCell]
  have : ¬ (a = i ∧ a = j ∧ i < m.length ∧ j < (m.getD i []).length) :=
    fun h => hij (h.1.symm.trans h.2.1)
  rw [if_neg this]

theorem roundOf_diag (postFailure : Bool) (N : Nat) (t : RoutingTable) (a : Nat) :
    distAt (roundOf postFailure N t).1 a a = distAt t.distances a a := by
  cases postFailure
  · rw [roundOf_false, dvrRound_eq]
    exact relaxRows_inv _ _ N (fun st => distAt st.1 a a = distAt t.distances a a)
      (fun st node dest hst _ _ hne _ => by
        show distAt (setCell st.1 node dest _) a a = _
        rw [setCell_diag _ _ _ hne]
        exact hst)
      N (Nat.le_refl N) (t.distances, false) rfl
  · rw [roundOf_true, failRound_eq]
    exact relaxRows_inv _ _ N (fun st => distAt st.1 a a = distAt t.distances a a)
      (fun st node dest hst _ _ hne _ => by
        show distAt (setCell st.1 node dest _) a a = _
        rw [setCell_diag _ _ _ hne]
        exact hst)
      N (Nat.le_refl N) (t.distances, false) rfl

theorem afterRounds_diag (postFailure : Bool) (N : Nat) (t : RoutingTable) (r a : Nat) :
    distAt (afterRounds (roundOf postFailure N) t r).distances a a = distAt t.distances a a := by
  induction r with
  | zero => rfl
  | succ r ih =>
    show distAt (roundOf postFailure N _).1 a a = _
    rw [roundOf_diag, ih]

theorem injectFailure_diag (t : RoutingTable) (failSrc failDest : Nat)
    (hne : failSrc - 1 ≠ failDest - 1) (a : Nat) :
    distAt (injectFailure t failSrc failDest).distances a a = distAt t.distances a a := by
  unfold injectFailure
  simp only
  rw [setCell_diag _ _ _ (Ne.symm hne), setCell_diag _ _ _ hne]

/-- C17. Self-distance is invariant under rounds: on every table, one round
of either variant leaves `distances[i][i]` unchanged for every `i`; so from a
table with `distances[i][i] == 0` for the nodes `i < N`, such as the initial
one, `distances[i][i] == 0` holds after any number of failure-free rounds,
after injecting a failure on labels `failSrc ≠ failDest`, and after any number
of post-failure rounds. -/
theorem self_distance_kept (N : Nat) (table : RoutingTable) :
    (∀ postFailure i,
      distAt (commit table (roundOf postFailure N table)).distances i i
        = distAt table.distances i i)
    ∧ ((∀ i, i < N → distAt table.distances i i = 0) →
        ∀ before failSrc failDest after, 1 ≤ failSrc → 1 ≤ failDest → failSrc ≠ failDest →
          ∀ i, i < N →
            distAt (afterRounds (dvrRound N) table before).distances i i = 0
            ∧ distAt (injectFailure (afterRounds (dvrRound N) table before)
                failSrc failDest).distances i i = 0
            ∧ distAt (afterRounds (failRound N)
                (injectFailure (afterRounds (dvrRound N) table before) failSrc failDest)
                after).distances i i = 0) := by
  refine ⟨fun postFailure i => roundOf_diag postFailure N table i, ?_⟩
  intro h0 before failSrc failDest after h1 h2 hne i hi
  have hne' : failSrc - 1 ≠ failDest - 1 := by omega
  have e1 : distAt (afterRounds (dvrRound N) table before).distances i i = 0 := by
    rw [← roundOf_false, afterRounds_diag]
    exact h0 i hi
  have e2 : distAt (injectFailure (afterRounds (dvrRound N) table before)
      failSrc failDest).distances i i = 0 := by
    rw [injectFailure_diag _ _ _ hne']
    exact e1
  refine ⟨e1, e2, ?_⟩
  rw [← roundOf_true, afterRounds_diag]
  exact e2

theorem self_distance_kept_witness :
    (∀ postFailure i,
      distAt (commit (initializeRoutingTable 3 line3)
          (roundOf postFailure 3 (initializeRoutingTable 3 line3))).distances i i
        = distAt (initializeRoutingTable 3 line3).distances i i)
    ∧ (∀ before failSrc failDest after, 1 ≤ failSrc → 1 ≤ failDest → failSrc ≠ failDest →
          ∀ i, i < 3 →
            distAt (afterRounds (dvrRound 3) (initializeRoutingTable 3 line3)
                before).distances i i = 0
            ∧ distAt (injectFailure (afterRounds (dvrRound 3) (initializeRoutingTable 3 line3)
                before) failSrc failDest).distances i i = 0
            ∧ distAt (afterRounds (failRound 3)
                (injectFailure (afterRounds (dvrRound 3) (initializeRoutingTable 3 line3)
                  before) failSrc failDest) after).distances i i = 0) :=
  ⟨(self_distance_kept 3 (initializeRoutingTable 3 line3)).1,
   (self_distance_kept 3 (initializeRoutingTable 3 line3)).2 (by decide)⟩

/-! ## The initial table, edge by edge -/

theorem linkCost_last (edges : List Edge) (i j : Nat) (c : Int)
    (h : linkCost edges i j = some c) :
    ∃ pre e post, edges = pre ++ e :: post ∧ e.joins i j = true
      ∧ (∀ x ∈ post, x.joins i j = false) ∧ e.cost = c := by
  unfold linkCost at h
  obtain ⟨e, he, rfl⟩ := Option.map_eq_some'.1 h
  obtain ⟨hj, as, bs, hsplit, hnot⟩ := List.find?_eq_some.1 he
  refine ⟨bs.reverse, e, as.reverse, ?_, hj, fun x hx => ?_, rfl⟩
  · have := congrArg List.reverse hsplit
    simpa using this
  · have := hnot x (List.mem_reverse.1 hx)
    simpa using this

theorem linkCost_isSome_iff (edges : List Edge) (i j : Nat) :
    (linkCost edges i j).isSome = true ↔ ∃ e ∈ edges, e.joins i j = true := by
  constructor
  · intro h
    obtain ⟨c, hc⟩ := Option.isSome_iff_exists.1 h
    obtain ⟨pre, e, post, hsplit, hj, _, _⟩ := linkCost_last edges i j c hc
    exact ⟨e, by rw [hsplit]; simp, hj⟩
  · rintro ⟨e, he, hj⟩
    cases hl : linkCost edges i j with
    | some c => rfl
    | none =>
      unfold linkCost at hl
      have hnone := Option.map_eq_none'.1 hl
      have := List.find?_eq_none.1 hnone e (List.mem_reverse.2 he)
      exact absurd hj this

/-- C13. The initial table from the edges: for an edge list with endpoints in
`[1, N]` and all `i ≠ j` below `N` (0-based), in the table returned by
`initializeRoutingTable`, `neighbors[i][j]` is true iff some edge of the list
joins `i + 1` and `j + 1` in either orientation; when it is true,
`distances[i][j]` and `distances[j][i]` both hold the cost of the last edge
of the list joining them; when it is false, `distances[i][j]` is `INT_MAX`. -/
theorem initialize_from_edges (N : Nat) (edges : List Edge)
    (hl : ∀ e ∈ edges, 1 ≤ e.src ∧ e.src ≤ N ∧ 1 ≤ e.dest ∧ e.dest ≤ N)
    (i j : Nat) (hi : i < N) (hj : j < N) (hij : i ≠ j) :
    (nbrAt (initializeRoutingTable N edges).neighbors i j = true ↔
      ∃ e ∈ edges, (e.src = i + 1 ∧ e.dest = j + 1) ∨ (e.src = j + 1 ∧ e.dest = i + 1))
    ∧ (nbrAt (initializeRoutingTable N edges).neighbors i j = true →
        ∃ pre e post, edges = pre ++ e :: post
          ∧ ((e.src = i + 1 ∧ e.dest = j + 1) ∨ (e.src = j + 1 ∧ e.dest = i + 1))
          ∧ (∀ x ∈ post,
              ¬ ((x.src = i + 1 ∧ x.dest = j + 1) ∨ (x.src = j + 1 ∧ x.dest = i + 1)))
          ∧ distAt (initializeRoutingTable N edges).distances i j = e.cost
          ∧ distAt (initializeRoutingTable N edges).distances j i = e.cost)
    ∧ (nbrAt (initializeRoutingTable N edges).neighbors i j = false →
        distAt (initializeRoutingTable N edges).distances i j = INT_MAX) := by
  obtain ⟨_, _, i3⟩ := initialize_spec N edges hl
  obtain ⟨n1, d1⟩ := i3 i j hi hj
  obtain ⟨_, d2⟩ := i3 j i hj hi
  have hji : ¬ j = i := fun h => hij h.symm
  rw [n1, d1, d2, ← linkCost_comm edges i j]
  refine ⟨?_, fun hsome => ?_, fun hnone => ?_⟩
  · rw [linkCost_isSome_iff]
    constructor
    · rintro ⟨e, he, hjn⟩
      exact ⟨e, he, by simpa [Edge.joins] using hjn⟩
    · rintro ⟨e, he, hjn⟩
      exact ⟨e, he, by simpa [Edge.joins] using hjn⟩
  · obtain ⟨c, hc⟩ := Option.isSome_iff_exists.1 hsome
    obtain ⟨pre, e, post, hsplit, hjn, hpost, hcost⟩ := linkCost_last edges i j c hc
    refine ⟨pre, e, post, hsplit, by simpa [Edge.joins] using hjn, fun x hx => ?_, ?_, ?_⟩
    · have := hpost x hx
      simpa [Edge.joins] using this
    · rw [hc, ← hcost]; rfl
    · rw [hc, ← hcost]; rfl
  · cases hc : linkCost edges i j with
    | some c => rw [hc] at hnone; exact Bool.noConfusion hnone
    | none => simp [hij]

theorem initialize_from_edges_witness :
    (nbrAt (initializeRoutingTable 3 triangle).neighbors 0 2 = true ↔
      ∃ e ∈ triangle, (e.src = 0 + 1 ∧ e.dest = 2 + 1) ∨ (e.src = 2 + 1 ∧ e.dest = 0 + 1))
    ∧ (nbrAt (initializeRoutingTable 3 triangle).neighbors 0 2 = true →
        ∃ pre e post, triangle = pre ++ e :: post
          ∧ ((e.src = 0 + 1 ∧ e.dest = 2 + 1) ∨ (e.src = 2 + 1 ∧ e.dest = 0 + 1))
          ∧ (∀ x ∈ post,
              ¬ ((x.src = 0 + 1 ∧ x.dest = 2 + 1) ∨ (x.src = 2 + 1 ∧ x.dest = 0 + 1)))
          ∧ distAt (initializeRoutingTable 3 triangle).distances 0 2 = e.cost
          ∧ distAt (initializeRoutingTable 3 triangle).distances 2 0 = e.cost)
    ∧ (nbrAt (initializeRoutingTable 3 triangle).neighbors 0 2 = false →
        distAt (initializeRoutingTable 3 triangle).distances 0 2 = INT_MAX) :=
  initialize_from_edges 3 triangle (by decide) 0 2 (by decide) (by decide) (by decide)

theorem initialize_diag (N : Nat) (edges : List Edge)
    (hl : ∀ e ∈ edges, 1 ≤ e.src ∧ e.src ≤ N ∧ 1 ≤ e.dest ∧ e.dest ≤ N)
    (hloop : ∀ e ∈ edges, e.src ≠ e.dest) (i : Nat) (hi : i < N) :
    distAt (initializeRoutingTable N edges).distances i i = 0 := by
  obtain ⟨_, _, i3⟩ := initialize_spec N edges hl
  rw [(i3 i i hi hi).2]
  cases hc : linkCost edges i i with
  | none => simp
  | some c =>
    obtain ⟨pre, e, post, hsplit, hjn, _, _⟩ := linkCost_last edges i i c hc
    have he : e ∈ edges := by rw [hsplit]; simp
    have hne := hloop e he
    unfold Edge.joins at hjn
    simp only [decide_eq_true_eq] at hjn
    omega

/-- C12, as the program behaves. Zero self-distance after initialisation: for
every edge list whose endpoints lie in `[1, N]` and in which no edge joins a
node to itself (any costs, any repetition of edges), the table returned by
`initializeRoutingTable` has `distances[i][i] == 0` for every node `i`. -/
theorem initialize_diag_zero (N : Nat) (edges : List Edge)
    (hl : ∀ e ∈ edges, 1 ≤ e.src ∧ e.src ≤ N ∧ 1 ≤ e.dest ∧ e.dest ≤ N)
    (hloop : ∀ e ∈ edges, e.src ≠ e.dest) (i : Nat) (hi : i < N) :
    distAt (initializeRoutingTable N edges).distances i i = 0 :=
  initialize_diag N edges hl hloop i hi

theorem initialize_diag_zero_witness :
    distAt (initializeRoutingTable 3 triangle).distances 1 1 = 0 :=
  initialize_diag_zero 3 triangle (by decide) (by decide) 1 (by decide)

/-- C12 fails as stated: the edge list `loop2` has its endpoints in `[1, 2]`,
and the table returned by `initializeRoutingTable` has `distances[2][2] == 7`. -/
theorem self_loop_overwrites_diagonal :
    (∀ e ∈ loop2, 1 ≤ e.src ∧ e.src ≤ 2 ∧ 1 ≤ e.dest ∧ e.dest ≤ 2)
    ∧ distAt (initializeRoutingTable 2 loop2).distances 1 1 = 7
    ∧ distAt (initializeRoutingTable 2 loop2).distances 1 1 ≠ 0 := by
  decide

/-! ## Neighbour entries at the reporting boundaries -/

theorem dvr_rounds_facts (N : Nat) (t : RoutingTable) (hsq : Square N t.distances) (r : Nat) :
    Square N (afterRounds (dvrRound N) t r).distances
    ∧ (afterRounds (dvrRound N) t r).neighbors = t.neighbors
    ∧ ∀ a b, distAt (afterRounds (dvrRound N) t r).distances a b ≤ distAt t.distances a b := by
  induction r with
  | zero => exact ⟨hsq, rfl, fun _ _ => le_refl _⟩
  | succ r ih =>
    obtain ⟨i1, i2, i3⟩ := ih
    refine ⟨(dvrRound_spec N _ i1).1, i2, fun a b => ?_⟩
    exact le_trans (dvrRound_le_before N _ a b) (i3 a b)

/-- C18, as the program behaves. Neighbour entries at the two reporting
boundaries, for every topology with endpoints in `[1, N]`: (a) immediately
after `initializeRoutingTable`, every pair with `neighbors[i][j] == true` has
`distances[i][j]` equal to the cost of the direct edge between `i` and `j`;
(b) immediately after the failure-injection step of `handleLinkFailure`
applied to the table returned by `distanceVectorRouting`, every pair with
`neighbors[i][j] == true` still holds the value it had in that table, which is
at most the cost of the direct edge. -/
theorem neighbour_entries_at_boundaries (N : Nat) (edges : List Edge)
    (hl : ∀ e ∈ edges, 1 ≤ e.src ∧ e.src ≤ N ∧ 1 ≤ e.dest ∧ e.dest ≤ N) :
    (∀ i j, i < N → j < N → nbrAt (initializeRoutingTable N edges).neighbors i j = true →
      linkCost edges i j = some (distAt (initializeRoutingTable N edges).distances i j))
    ∧ (∀ failSrc failDest, 1 ≤ failSrc ∧ failSrc ≤ N → 1 ≤ failDest ∧ failDest ≤ N →
        ∀ i j, i < N → j < N →
          nbrAt (injectFailure (distanceVectorRouting N edges).table
            failSrc failDest).neighbors i j = true →
          distAt (injectFailure (distanceVectorRouting N edges).table
              failSrc failDest).distances i j
            = distAt (distanceVectorRouting N edges).table.distances i j
          ∧ ∃ c, linkCost edges i j = some c
            ∧ distAt (injectFailure (distanceVectorRouting N edges).table
                failSrc failDest).distances i j ≤ c) := by
  obtain ⟨q1, q2, i3⟩ := initialize_spec N edges hl
  have hinit : ∀ i j, i < N → j < N →
      nbrAt (initializeRoutingTable N edges).neighbors i j = true →
      linkCost edges i j = some (distAt (initializeRoutingTable N edges).distances i j) := by
    intro i j hi hj hn
    obtain ⟨n1, d1⟩ := i3 i j hi hj
    rw [n1] at hn
    obtain ⟨c, hc⟩ := Option.isSome_iff_exists.1 hn
    rw [d1, hc]
    rfl
  refine ⟨hinit, ?_⟩
  intro failSrc failDest hs hd i j hi hj hn
  obtain ⟨r, _, _, _, h4, _, _⟩ :=
    convergeLoop_spec (dvrRound N) MAX_ITERATIONS (initializeRoutingTable N edges) 0
      (by decide) (by simp)
  have htab : (distanceVectorRouting N edges).table
      = afterRounds (dvrRound N) (initializeRoutingTable N edges) r := h4
  rw [htab] at hn ⊢
  obtain ⟨f1, f2, f3⟩ := dvr_rounds_facts N (initializeRoutingTable N edges) q1 r
  have fsq : Square N (afterRounds (dvrRound N) (initializeRoutingTable N edges) r).neighbors := by
    rw [f2]; exact q2
  obtain ⟨_, s2, s3⟩ := injectFailure_cells N _ f1 fsq failSrc failDest (by omega) (by omega)
  rw [s3 i j] at hn
  split at hn
  · exact Bool.noConfusion hn
  · rename_i hcase
    rw [f2] at hn
    rw [s2 i j, if_neg hcase]
    exact ⟨rfl, _, hinit i j hi hj hn, f3 i j⟩

theorem neighbour_entries_at_boundaries_witness :
    (∀ i j, i < 3 → j < 3 → nbrAt (initializeRoutingTable 3 triangle).neighbors i j = true →
      linkCost triangle i j = some (distAt (initializeRoutingTable 3 triangle).distances i j))
    ∧ (∀ failSrc failDest, 1 ≤ failSrc ∧ failSrc ≤ 3 → 1 ≤ failDest ∧ failDest ≤ 3 →
        ∀ i j, i < 3 → j < 3 →
          nbrAt (injectFailure (distanceVectorRouting 3 triangle).table
            failSrc failDest).neighbors i j = true →
          distAt (injectFailure (distanceVectorRouting 3 triangle).table
              failSrc failDest).distances i j
            = distAt (distanceVectorRouting 3 triangle).table.distances i j
          ∧ ∃ c, linkCost triangle i j = some c
            ∧ distAt (injectFailure (distanceVectorRouting 3 triangle).table
                failSrc failDest).distances i j ≤ c) :=
  neighbour_entries_at_boundaries 3 triangle (by decide)

/-- C18 fails as stated: in the triangle `1 - 2 - 3` with costs 1, 1 and 10
for the link `1 - 3`, `distanceVectorRouting` converges; right after the
injection of the failure of `(1, 2)` nodes 1 and 3 are still neighbours and
`distances[1][3]` is 2, the length of the route over node 2, not the cost 10
of the direct edge. -/
theorem neighbour_entry_not_reset_by_injection :
    ValidEdges 3 triangle
    ∧ (distanceVectorRouting 3 triangle).iterations < MAX_ITERATIONS
    ∧ nbrAt (injectFailure (distanceVectorRouting 3 triangle).table 1 2).neighbors 0 2 = true
    ∧ distAt (injectFailure (distanceVectorRouting 3 triangle).table 1 2).distances 0 2 = 2
    ∧ linkCost triangle 0 2 = some 10 := by
  decide

/-! ## Neighbour entries stay finite -/

theorem linkCost_mem (edges : List Edge) (i j : Nat) (c : Int)
    (h : linkCost edges i j = some c) : ∃ e ∈ edges, e.cost = c := by
  obtain ⟨pre, e, post, hsplit, _, _, hc⟩ := linkCost_last edges i j c h
  exact ⟨e, by rw [hsplit]; simp, hc⟩

theorem nf_initialize (N : Nat) (edges : List Edge)
    (hv : ∀ e ∈ edges, 1 ≤ e.src ∧ e.src ≤ N ∧ 1 ≤ e.dest ∧ e.dest ≤ N ∧ e.src ≠ e.dest
      ∧ 0 ≤ e.cost ∧ e.cost < INT_MAX) :
    NeighboursFinite N (initializeRoutingTable N edges) := by
  have hl : ∀ e ∈ edges, 1 ≤ e.src ∧ e.src ≤ N ∧ 1 ≤ e.dest ∧ e.dest ≤ N :=
    fun e he => ⟨(hv e he).1, (hv e he).2.1, (hv e he).2.2.1, (hv e he).2.2.2.1⟩
  obtain ⟨q1, q2, i3⟩ := initialize_spec N edges hl
  refine ⟨q1, q2, fun a ha => initialize_diag N edges hl (fun e he => (hv e he).2.2.2.2.1) a ha,
    fun a b ha hb => ?_, fun a b ha hb hn => ?_⟩
  · rw [(i3 a b ha hb).2]
    cases hc : linkCost edges a b with
    | none =>
      by_cases hab : a = b
      · simp [hab, INT_MAX]
      · simp [hab, INT_MAX]
    | some c =>
      obtain ⟨e, he, rfl⟩ := linkCost_mem edges a b c hc
      obtain ⟨_, _, _, _, _, c0, c1⟩ := hv e he
      show -2147483648 ≤ e.cost ∧ e.cost ≤ INT_MAX
      constructor <;> omega
  · rw [(i3 a b ha hb).1] at hn
    obtain ⟨c, hc⟩ := Option.isSome_iff_exists.1 hn
    rw [(i3 a b ha hb).2, hc]
    obtain ⟨e, he, rfl⟩ := linkCost_mem edges a b c hc
    exact (hv e he).2.2.2.2.2.2

theorem minDistVia_range (N : Nat) (t : RoutingTable) (i j : Nat) :
    -2147483648 ≤ minDistVia N t i j ∧ minDistVia N t i j ≤ INT_MAX := by
  obtain ⟨h1, _, h3⟩ := minDistVia_spec N t i j
  refine ⟨?_, h1⟩
  rcases h3 with h | ⟨k, _, _, _, he⟩
  · rw [h]; decide
  · rw [he]; exact addInt_ge_min _ _

theorem nf_dvrRound (N : Nat) (t : RoutingTable) (h : NeighboursFinite N t) :
    NeighboursFinite N (commit t (dvrRound N t)) := by
  obtain ⟨a1, a2, a3, a4, a5⟩ := h
  obtain ⟨s1, s2, _⟩ := dvrRound_spec N t a1
  refine ⟨s1, a2, fun a ha => ?_, fun a b ha hb => ?_, fun a b ha hb hn => ?_⟩
  · show distAt (dvrRound N t).1 a a = 0
    rw [s2 a a]
    simp [a3 a ha]
  · show -2147483648 ≤ distAt (dvrRound N t).1 a b ∧ distAt (dvrRound N t).1 a b ≤ INT_MAX
    rw [s2 a b]
    split
    · exact minDistVia_range N t a b
    · exact a4 a b ha hb
  · exact lt_of_le_of_lt (dvrRound_le_before N t a b) (a5 a b ha hb hn)

theorem nf_failRound (N : Nat) (t : RoutingTable) (h : NeighboursFinite N t) :
    NeighboursFinite N (commit t (failRound N t)) := by
  obtain ⟨a1, a2, a3, a4, a5⟩ := h
  obtain ⟨s1, s2, _⟩ := failRound_spec N t a1
  refine ⟨s1, a2, fun a ha => ?_, fun a b ha hb => ?_, fun a b ha hb hn => ?_⟩
  · show distAt (failRound N t).1 a a = 0
    rw [s2 a a]
    simp [a3 a ha]
  · show -2147483648 ≤ distAt (failRound N t).1 a b ∧ distAt (failRound N t).1 a b ≤ INT_MAX
    rw [s2 a b]
    split
    · exact minDistVia_range N t a b
    · exact a4 a b ha hb
  · show distAt (failRound N t).1 a b < INT_MAX
    rw [s2 a b]
    split
    · have hbb : distAt t.distances b b ≠ INT_MAX := by rw [a3 b hb]; decide
      have hle := (minDistVia_spec N t a b).2.1 b hb hn hbb
      have hlt := a5 a b ha hb hn
      have hr := a4 a b ha hb
      rw [a3 b hb] at hle
      have hz : addInt (distAt t.distances a b) 0 = distAt t.distances a b := by
        unfold addInt
        unfold INT_MAX at hr
        omega
      rw [hz] at hle
      omega
    · exact a5 a b ha hb hn

theorem nf_injectFailure (N : Nat) (t : RoutingTable) (h : NeighboursFinite N t)
    (failSrc failDest : Nat) (h1 : failSrc - 1 < N) (h2 : failDest - 1 < N)
    (hne : failSrc - 1 ≠ failDest - 1) :
    NeighboursFinite N (injectFailure t failSrc failDest) := by
  obtain ⟨a1, a2, a3, a4, a5⟩ := h
  obtain ⟨s1, s2, s3⟩ := injectFailure_cells N t a1 a2 failSrc failDest h1 h2
  refine ⟨s1, square_setCell (square_setCell a2 _ _ _) _ _ _, fun a ha => ?_,
    fun a b ha hb => ?_, fun a b ha hb hn => ?_⟩
  · rw [injectFailure_diag t failSrc failDest hne]
    exact a3 a ha
  · rw [s2 a b]
    split
    · decide
    · exact a4 a b ha hb
  · rw [s3 a b] at hn
    split at hn
    · exact Bool.noConfusion hn
    · rename_i hcase
      rw [s2 a b, if_neg hcase]
      exact a5 a b ha hb hn

theorem nf_dvr_rounds (N : Nat) (t : RoutingTable) (h : NeighboursFinite N t) (r : Nat) :
    NeighboursFinite N (afterRounds (dvrRound N) t r) := by
  induction r with
  | zero => exact h
  | succ r ih => exact nf_dvrRound N _ ih

theorem nf_fail_rounds (N : Nat) (t : RoutingTable) (h : NeighboursFinite N t) (r : Nat) :
    NeighboursFinite N (afterRounds (failRound N) t r) := by
  induction r with
  | zero => exact h
  | succ r ih => exact nf_failRound N _ ih

theorem minDistVia_eq_spec (N : Nat) (t : RoutingTable) (h : NeighboursFinite N t)
    (i j : Nat) (hi : i < N) : minDistVia N t i j = specMinDist N t i j := by
  unfold minDistVia specMinDist
  apply List.foldl_ext
  intro acc k hk
  have hk' : k < N := List.mem_range.1 hk
  by_cases hn : nbrAt t.neighbors i k = true
  · have hfin : distAt t.distances i k ≠ INT_MAX := ne_of_lt (h.2.2.2.2 i k hi hk' hn)
    simp only [hn, if_true, hfin, ne_eq, not_false_eq_true, true_and]
  · simp only [hn, Bool.false_eq_true, if_false]

/-- C16. Neighbour distances stay finite, so the program's relaxation equals
the specification's. For a topology with endpoints in `[1, N]`, no self-loops
and costs in `[0, INT_MAX)`, and labels `failSrc ≠ failDest` in `[1, N]`: in
the state reached by initialisation and any number of failure-free rounds, and
in the state reached from there by failure injection and any number of
post-failure rounds, `neighbors[i][k]` true implies `distances[i][k] !=
INT_MAX`; hence neither operand of an addition of a round is `INT_MAX`, and
the neighbour minimum of the program, guarded by `old[k][j] != INT_MAX` alone,
equals the doubly guarded one of the specification. -/
theorem neighbour_entries_stay_finite (N : Nat) (edges : List Edge)
    (hv : ∀ e ∈ edges, 1 ≤ e.src ∧ e.src ≤ N ∧ 1 ≤ e.dest ∧ e.dest ≤ N ∧ e.src ≠ e.dest
      ∧ 0 ≤ e.cost ∧ e.cost < INT_MAX)
    (failSrc failDest : Nat) (hs : 1 ≤ failSrc ∧ failSrc ≤ N) (hd : 1 ≤ failDest ∧ failDest ≤ N)
    (hne : failSrc ≠ failDest) (before after : Nat) (t : RoutingTable)
    (ht : t = afterRounds (dvrRound N) (initializeRoutingTable N edges) before
      ∨ t = afterRounds (failRound N)
          (injectFailure (afterRounds (dvrRound N) (initializeRoutingTable N edges) before)
            failSrc failDest) after) :
    (∀ i k, i < N → k < N → nbrAt t.neighbors i k = true → distAt t.distances i k ≠ INT_MAX)
    ∧ (∀ i j k, i < N → j < N → k < N → nbrAt t.neighbors i k = true →
        distAt t.distances k j ≠ INT_MAX →
        distAt t.distances i k ≠ INT_MAX ∧ distAt t.distances k j ≠ INT_MAX)
    ∧ (∀ i j, i < N → j < N → minDistVia N t i j = specMinDist N t i j) := by
  have h0 := nf_initialize N edges hv
  have h1 := nf_dvr_rounds N _ h0 before
  have hnf : NeighboursFinite N t := by
    rcases ht with ht | ht
    · rw [ht]; exact h1
    · rw [ht]
      exact nf_fail_rounds N _
        (nf_injectFailure N _ h1 failSrc failDest (by omega) (by omega) (by omega)) after
  refine ⟨fun i k hi hk hn => ne_of_lt (hnf.2.2.2.2 i k hi hk hn),
    fun i j k hi _ hk hn hf => ⟨ne_of_lt (hnf.2.2.2.2 i k hi hk hn), hf⟩,
    fun i j hi _ => minDistVia_eq_spec N t hnf i j hi⟩

theorem neighbour_entries_stay_finite_witness :
    (∀ i k, i < 3 → k < 3 →
      nbrAt (afterRounds (failRound 3)
        (injectFailure (afterRounds (dvrRound 3) (initializeRoutingTable 3 line3) 2) 1 2)
        3).neighbors i k = true →
      distAt (afterRounds (failRound 3)
        (injectFailure (afterRounds (dvrRound 3) (initializeRoutingTable 3 line3) 2) 1 2)
        3).distances i k ≠ INT_MAX)
    ∧ (∀ i j k, i < 3 → j < 3 → k < 3 →
        nbrAt (afterRounds (failRound 3)
          (injectFailure (afterRounds (dvrRound 3) (initializeRoutingTable 3 line3) 2) 1 2)
          3).neighbors i k = true →
        distAt (afterRounds (failRound 3)
          (injectFailure (afterRounds (dvrRound 3) (initializeRoutingTable 3 line3) 2) 1 2)
          3).distances k j ≠ INT_MAX →
        distAt (afterRounds (failRound 3)
          (injectFailure (afterRounds (dvrRound 3) (initializeRoutingTable 3 line3) 2) 1 2)
          3).distances i k ≠ INT_MAX
        ∧ distAt (afterRounds (failRound 3)
          (injectFailure (afterRounds (dvrRound 3) (initializeRoutingTable 3 line3) 2) 1 2)
          3).distances k j ≠ INT_MAX)
    ∧ (∀ i j, i < 3 → j < 3 →
        minDistVia 3 (afterRounds (failRound 3)
          (injectFailure (afterRounds (dvrRound 3) (initializeRoutingTable 3 line3) 2) 1 2)
          3) i j
        = specMinDist 3 (afterRounds (failRound 3)
          (injectFailure (afterRounds (dvrRound 3) (initializeRoutingTable 3 line3) 2) 1 2)
          3) i j) :=
  neighbour_entries_stay_finite 3 line3 (by decide) 1 2 (by decide) (by decide) (by decide)
    2 3 _ (Or.inr rfl)

/-! ## The line of three nodes, round by round -/

set_option maxRecDepth 1000000 in
/-- C20. Exact outcome of the line `1 - 2 - 3` with unit costs:
`distanceVectorRouting` stops after 2 rounds with `distances[1][3] ==
distances[3][1] == 2`; then `handleLinkFailure` with `(1, 2)` runs exactly 100
rounds, every one of which produces a change; after round `t` (`1 ≤ t ≤ 100`)
exactly one of `distances[2][1]` and `distances[3][1]` is not `INT_MAX` and
equals `t + 2`, node 2's entry when `t` is odd and node 3's when `t` is even;
and the final flagged list is exactly the pair `(3, 1)`, whose distance is
102. -/
theorem line3_exact_outcome :
    (distanceVectorRouting 3 line3).iterations = 2
    ∧ distAt (distanceVectorRouting 3 line3).table.distances 0 2 = 2
    ∧ distAt (distanceVectorRouting 3 line3).table.distances 2 0 = 2
    ∧ (handleLinkFailure 3 (distanceVectorRouting 3 line3).table 1 2).iterations = 100
    ∧ (∀ t, t < 100 →
        (failRound 3 (afterRounds (failRound 3)
          (injectFailure (distanceVectorRouting 3 line3).table 1 2) t)).2 = true)
    ∧ (∀ t, 1 ≤ t ∧ t ≤ 100 →
        (t % 2 = 1 →
          distAt (afterRounds (failRound 3)
            (injectFailure (distanceVectorRouting 3 line3).table 1 2) t).distances 1 0
            = (t : Int) + 2
          ∧ distAt (afterRounds (failRound 3)
            (injectFailure (distanceVectorRouting 3 line3).table 1 2) t).distances 2 0
            = INT_MAX)
        ∧ (t % 2 = 0 →
          distAt (afterRounds (failRound 3)
            (injectFailure (distanceVectorRouting 3 line3).table 1 2) t).distances 2 0
            = (t : Int) + 2
          ∧ distAt (afterRounds (failRound 3)
            (injectFailure (distanceVectorRouting 3 line3).table 1 2) t).distances 1 0
            = INT_MAX))
    ∧ (handleLinkFailure 3 (distanceVectorRouting 3 line3).table 1 2).table
        = afterRounds (failRound 3)
            (injectFailure (distanceVectorRouting 3 line3).table 1 2) 100
    ∧ (handleLinkFailure 3 (distanceVectorRouting 3 line3).table 1 2).pairs = [(2, 0)]
    ∧ distAt (handleLinkFailure 3 (distanceVectorRouting 3 line3).table 1 2).table.distances
        2 0 = 102 := by
  refine ⟨by decide, by decide, by decide, by decide!, by decide!, ?_, by decide!, by decide!,
    by decide!⟩
  have h : ∀ t, t < 101 → (1 ≤ t ∧ t ≤ 100 →
        (t % 2 = 1 →
          distAt (afterRounds (failRound 3)
            (injectFailure (distanceVectorRouting 3 line3).table 1 2) t).distances 1 0
            = (t : Int) + 2
          ∧ distAt (afterRounds (failRound 3)
            (injectFailure (distanceVectorRouting 3 line3).table 1 2) t).distances 2 0
            = INT_MAX)
        ∧ (t % 2 = 0 →
          distAt (afterRounds (failRound 3)
            (injectFailure (distanceVectorRouting 3 line3).table 1 2) t).distances 2 0
            = (t : Int) + 2
          ∧ distAt (afterRounds (failRound 3)
            (injectFailure (distanceVectorRouting 3 line3).table 1 2) t).distances 1 0
            = INT_MAX)) := by
    decide!
  intro t ht
  exact h t (by omega) ht

end DVR
